import Mathlib

namespace PyStr

/-- Whitespace test matching the default behaviour of Python's
`str.split` / `str.strip` on the ASCII whitespace characters. -/
def isSpace (c : Char) : Bool :=
  c = ' ' || c = '\t' || c = '\n' || c = '\r' || c = '\x0b' || c = '\x0c'

/-- View a Lean string literal in the character-list model. -/
def strC (s : String) : List Char := s.toList

/-- One step of `splitWs`: how a non-whitespace character `c` extends the
split `r` of the remaining characters `cs`. -/
def splitWsStep (c : Char) (cs : List Char) (r : List (List Char)) :
    List (List Char) :=
  match cs with
  | [] => [[c]]
  | d :: _ =>
    if isSpace d then [c] :: r
    else
      match r with
      | [] => [[c]]
      | t :: ts => (c :: t) :: ts

/-- Python `str.split()` with no separator argument: split on runs of
whitespace, discarding empty tokens. -/
def splitWs : List Char → List (List Char)
  | [] => []
  | c :: cs =>
    if isSpace c then splitWs cs
    else splitWsStep c cs (splitWs cs)

/-- Python `str.strip()`: remove leading and trailing whitespace. -/
def stripWs (l : List Char) : List Char :=
  ((l.dropWhile isSpace).reverse.dropWhile isSpace).reverse

/-- `" ".join(tokens)`. -/
def joinTokens (ts : List (List Char)) : List Char :=
  List.intercalate [' '] ts

/-- Python `str.splitlines()` restricted to the newline character, which
is the only line terminator present after universal-newline translation. -/
def splitNl : List Char → List (List Char)
  | [] => []
  | c :: cs =>
    if c = '\n' then [] :: splitNl cs
    else
      match splitNl cs with
      | [] => [[c]]
      | t :: ts => (c :: t) :: ts

/-- `"\n".join(lines)`. -/
def joinNl (ls : List (List Char)) : List Char :=
  List.intercalate ['\n'] ls

/-- `text.endswith("\n")`. -/
def endsNl (l : List Char) : Bool :=
  l.getLast? = some '\n'

/-- A well-formed token: nonempty and free of whitespace.  This is what
`str.split()` produces. -/
def wfToken (t : List Char) : Prop :=
  t ≠ [] ∧ ∀ c ∈ t, isSpace c = false

instance (t : List Char) : Decidable (wfToken t) := by
  unfold wfToken; infer_instance

end PyStr

open PyStr

namespace PyFloat

/-- Collect a run of digits, allowing a single '_' between two digits as
CPython's numeric literals do.  Returns the digits and the unconsumed
remainder. -/
def takeDigitsU : List Char → List Char × List Char
  | [] => ([], [])
  | [c] => if c.isDigit then ([c], []) else ([], [c])
  | c :: d2 :: rest =>
    if c.isDigit then
      if d2 = '_' then
        match rest with
        | e :: rest2 =>
          if e.isDigit then
            let p := takeDigitsU (e :: rest2)
            (c :: p.1, p.2)
          else ([c], d2 :: rest)
        | [] => ([c], [d2])
      else
        let p := takeDigitsU (d2 :: rest)
        (c :: p.1, p.2)
    else ([], c :: d2 :: rest)

def natOfDigits (ds : List Char) : Nat :=
  ds.foldl (fun acc c => 10 * acc + (c.toNat - 48)) 0

/-- Parse mantissa and optional exponent after the sign. -/
def parseBody (l : List Char) : Option ℚ :=
  let ip := takeDigitsU l
  let intDs := ip.1
  let r1 := ip.2
  let fp :=
    match r1 with
    | '.' :: r => takeDigitsU r
    | _ => ([], r1)
  let fracDs := fp.1
  let r2 := fp.2
  if intDs = [] ∧ fracDs = [] then none
  else
    let mant : ℚ := (natOfDigits intDs : ℚ) +
      (natOfDigits fracDs : ℚ) / (10 : ℚ) ^ fracDs.length
    match r2 with
    | [] => some mant
    | e :: r3 =>
      if e = 'e' ∨ e = 'E' then
        let sp :=
          match r3 with
          | '+' :: r4 => (1, r4)
          | '-' :: r4 => (-1, r4)
          | r4 => ((1 : Int), r4)
        let ep := takeDigitsU sp.2
        if ep.1 ≠ [] ∧ ep.2 = [] then
          some (mant * (10 : ℚ) ^ (sp.1 * (natOfDigits ep.1 : Int)))
        else none
      else none

def lowerAll (l : List Char) : List Char := l.map Char.toLower

/-- `float(s)` for a string already stripped of whitespace and sign:
keyword or decimal body. -/
def parseUnsigned (l : List Char) : Option ℚ :=
  if lowerAll l = strC "inf" ∨ lowerAll l = strC "infinity" ∨ lowerAll l = strC "nan" then
    some 0
  else parseBody l

/-- Model of Python `float(token)`: `some` iff CPython would accept the
token, `none` iff it would raise `ValueError`. -/
def pyFloat (l : List Char) : Option ℚ :=
  let s := stripWs l
  match s with
  | '+' :: r => parseUnsigned r
  | '-' :: r => (parseUnsigned r).map Neg.neg
  | r => parseUnsigned r

end PyFloat

open PyFloat

namespace BboxPoly

/-- The eight numeric values emitted by `to_polygon`, in source order:
`x_min x_max x_max x_min y_min y_min y_max y_max` (after the label). -/
def to_polygon (x_center y_center width height : ℚ) : List ℚ :=
  let half_w := width / 2
  let half_h := height / 2
  let x_min := x_center - half_w
  let x_max := x_center + half_w
  let y_min := y_center - half_h
  let y_max := y_center + half_h
  [x_min, x_max, x_max, x_min, y_min, y_min, y_max, y_max]

end BboxPoly

namespace ObbCorners

/-- `rotate_points`: the four rectangle corners obtained by rotating the
half-extent offsets about the center by `angle_rad`. -/
noncomputable def rotate_points (cx cy w h angle_rad : ℝ) : List (ℝ × ℝ) :=
  let half_w := w / 2
  let half_h := h / 2
  let cos_a := Real.cos angle_rad
  let sin_a := Real.sin angle_rad
  let rel_points := [(-half_w, -half_h), (half_w, -half_h), (half_w, half_h), (-half_w, half_h)]
  rel_points.map fun p => (cx + (p.1 * cos_a - p.2 * sin_a), cy + (p.1 * sin_a + p.2 * cos_a))

/-- `convert_line`.  The `format_float` rendering of a float to text is
kept as a parameter `fmt`; the claims about this function hold for every
rendering, in particular for the source's 15-decimal-place format.  The
`default_angle` command line float is an exact rational. -/
noncomputable def convert_line (fmt : ℝ → List Char) (angleFmtDeg : Bool)
    (defaultAngle : ℚ) (orderGrouped : Bool) (parts : List (List Char)) :
    Except (List Char) (List Char) :=
  if parts.length < 5 then
    .error (strC "Linha não possui 5 campos obrigatórios.")
  else if parts.length = 9 then
    .ok (joinTokens parts)
  else
    match pyFloat (parts.getD 1 []), pyFloat (parts.getD 2 []),
        pyFloat (parts.getD 3 []), pyFloat (parts.getD 4 []),
        (if 6 ≤ parts.length then pyFloat (parts.getD 5 []) else some defaultAngle) with
    | some cx, some cy, some w, some h, some angle =>
      let angleRad : ℝ := if angleFmtDeg then (angle : ℝ) * Real.pi / 180 else (angle : ℝ)
      let corners := rotate_points cx cy w h angleRad
      let cls := parts.getD 0 []
      let flattened :=
        if orderGrouped then
          cls :: (corners.map (fun p => fmt p.1) ++ corners.map (fun p => fmt p.2))
        else
          cls :: corners.flatMap (fun p => [fmt p.1, fmt p.2])
      .ok (joinTokens flattened)
    | _, _, _, _, _ =>
      .error (strC "Não foi possível interpretar floats: " ++ joinTokens parts)

/-- The loop body of `process_file` over the stripped non-blank lines:
either the converted lines plus the changed flag, or the error raised at
the first offending line, wrapped with the file path. -/
noncomputable def processGo (convert : List (List Char) → Except (List Char) (List Char))
    (path : List Char) :
    List (List Char) → List (List Char) × Bool → Except (List Char) (List (List Char) × Bool)
  | [], acc => .ok acc
  | line :: rest, acc =>
    let stripped := stripWs line
    if stripped = [] then processGo convert path rest acc
    else
      match convert (splitWs stripped) with
      | .error e => .error (strC "Erro no arquivo " ++ path ++ strC ": " ++ e)
      | .ok conv =>
        processGo convert path rest
          (acc.1 ++ [conv], acc.2 || decide (conv ≠ stripped))

/-- `process_file` without dry-run: on success, the changed flag and the
file's resulting content (unchanged when no line changed); on a parse
error, the raised message — the file is left unwritten, which the
`Except.error` result models. -/
noncomputable def process_file (fmt : ℝ → List Char) (angleFmtDeg : Bool)
    (defaultAngle : ℚ) (orderGrouped : Bool) (path text : List Char) :
    Except (List Char) (Bool × List Char) :=
  match processGo (convert_line fmt angleFmtDeg defaultAngle orderGrouped) path
      (splitNl text) ([], false) with
  | .error e => .error e
  | .ok r =>
    .ok (r.2,
      if r.2 then
        joinNl r.1 ++ (if endsNl text = true ∧ r.1 ≠ [] then ['\n'] else [])
      else text)

/-- A line whose numeric fields the converter must parse and at least one
of which Python `float()` rejects. -/
def badNumericLine (parts : List (List Char)) : Prop :=
  5 ≤ parts.length ∧ parts.length ≠ 9 ∧
    (pyFloat (parts.getD 1 []) = none ∨ pyFloat (parts.getD 2 []) = none ∨
     pyFloat (parts.getD 3 []) = none ∨ pyFloat (parts.getD 4 []) = none ∨
     (6 ≤ parts.length ∧ pyFloat (parts.getD 5 []) = none))

instance (parts : List (List Char)) : Decidable (badNumericLine parts) := by
  unfold badNumericLine; infer_instance

end ObbCorners

/-- Conclusion of claim C2: both converters' corner outputs reproduce the
input geometry.  For the axis-aligned `to_polygon` (exact rationals) the
width, height and center are recovered exactly; for `rotate_points` the
diagonal midpoints recover the center, the edge vectors recover width,
height and the sine/cosine of the angle (which determines the angle
modulo a full turn). -/
def C2Concl (xc yc w h : ℚ) (cx cy W H A : ℝ) : Prop :=
  (∃ xmin xmax ymin ymax : ℚ,
    BboxPoly.to_polygon xc yc w h = [xmin, xmax, xmax, xmin, ymin, ymin, ymax, ymax] ∧
    xmax - xmin = w ∧ ymax - ymin = h ∧
    (xmin + xmax) / 2 = xc ∧ (ymin + ymax) / 2 = yc) ∧
  (∃ c1 c2 c3 c4 : ℝ × ℝ,
    ObbCorners.rotate_points cx cy W H A = [c1, c2, c3, c4] ∧
    (c1.1 + c3.1) / 2 = cx ∧ (c1.2 + c3.2) / 2 = cy ∧
    (c2.1 + c4.1) / 2 = cx ∧ (c2.2 + c4.2) / 2 = cy ∧
    c2.1 - c1.1 = W * Real.cos A ∧ c2.2 - c1.2 = W * Real.sin A ∧
    c4.1 - c1.1 = -(H * Real.sin A) ∧ c4.2 - c1.2 = H * Real.cos A ∧
    Real.sqrt ((c2.1 - c1.1) ^ 2 + (c2.2 - c1.2) ^ 2) = W ∧
    Real.sqrt ((c4.1 - c1.1) ^ 2 + (c4.2 - c1.2) ^ 2) = H ∧
    (c2.1 - c1.1) / W = Real.cos A ∧ (c2.2 - c1.2) / W = Real.sin A)

namespace SplitYolo

/-- Deterministic stand-in for the pseudo-random stream. -/
def lcg (s : Nat) : Nat :=
  (6364136223846793005 * s + 1442695040888963407) % 18446744073709551616

/-- `x[i], x[j] = x[j], x[i]` on a list (no-op when an index is out of
range, which the shuffle loop never produces). -/
def swapList (l : List α) (i j : Nat) : List α :=
  match l[i]?, l[j]? with
  | some a, some b => (l.set i b).set j a
  | _, _ => l

/-- The Fisher-Yates loop of `random.shuffle`: for `i` from `len-1`
down to `1`, swap `x[i]` with `x[randbelow(i+1)]`. -/
def shuffleGo : Nat → Nat → List α → List α
  | 0, _, l => l
  | i + 1, s, l => shuffleGo i (lcg s) (swapList l (i + 1) (lcg s % (i + 2)))

/-- `rng = random.Random(seed); rng.shuffle(pairs)`. -/
def pyShuffle (seed : Nat) (l : List α) : List α :=
  shuffleGo (l.length - 1) (lcg seed) l

/-- `math.isclose(a, b, abs_tol=1e-6)` on exact rationals (the default
relative tolerance is `1e-9`). -/
def isclose (a b : ℚ) : Bool :=
  decide (|a - b| ≤ max (1 / 1000000000 * max |a| |b|) (1 / 1000000))

/-- `compute_split_indices`' accumulation loop over `ratios[:-1]`. -/
def computeSplitGo (total : Nat) : Int → List ℚ → List Int
  | _, [] => []
  | start, r :: rs =>
    let count := Rat.floor ((total : ℚ) * r)
    (start + count) :: computeSplitGo total (start + count) rs

/-- `compute_split_indices`. -/
def compute_split_indices (total : Nat) (rs : List ℚ) : List Int :=
  computeSplitGo total 0 rs.dropLast ++ [(total : Int)]

/-- Python index clamping for a slice bound on a list of length `n`. -/
def pyIdx (n : Nat) (i : Int) : Nat :=
  if i < 0 then (n + i).toNat else min i.toNat n

/-- Python `l[a:b]`. -/
def pySlice (l : List α) (a b : Int) : List α :=
  (l.drop (pyIdx l.length a)).take (pyIdx l.length b - pyIdx l.length a)

structure SplitResult (α : Type) where
  train : List α
  val : List α
  test : List α
deriving DecidableEq

/-- `split_dataset`: validate the ratios, shuffle, slice
(`pairs[:train_end]`, `pairs[train_end:val_end]`, `pairs[val_end:]`).
The final match arm is unreachable because three ratios always produce
three indices; it models the `ValueError` a mismatched tuple unpacking
would raise. -/
def split_dataset (pairs : List α) (rs : List ℚ) (seed : Nat) :
    Except (List Char) (SplitResult α) :=
  if rs.length ≠ 3 then
    .error (strC "Expected three split ratios for train/val/test.")
  else if isclose rs.sum 1 = false then
    .error (strC "Split ratios must sum to 1.0.")
  else
    match compute_split_indices (pyShuffle seed pairs).length rs with
    | [trainEnd, valEnd, _] =>
      .ok ⟨pySlice (pyShuffle seed pairs) 0 trainEnd,
        pySlice (pyShuffle seed pairs) trainEnd valEnd,
        pySlice (pyShuffle seed pairs) valEnd ((pyShuffle seed pairs).length : Int)⟩
    | _ => .error (strC "Expected three split indices.")

end SplitYolo

/-- Conclusion of claim C1 (for nonnegative ratios): `split_dataset`
succeeds, the concatenation of the three splits is a permutation of the
input pairs, the train and validation sizes are the floors of the
configured fractions, the test split holds the remainder, and a second
run on the same input and seed produces the identical assignment. -/
def C1Concl (α : Type) (pairs : List α) (r1 r2 r3 : ℚ) (seed : Nat) : Prop :=
  ∃ res : SplitYolo.SplitResult α,
    SplitYolo.split_dataset pairs [r1, r2, r3] seed = .ok res ∧
    List.Perm (res.train ++ res.val ++ res.test) pairs ∧
    (res.train.length : Int) = Rat.floor ((pairs.length : ℚ) * r1) ∧
    (res.val.length : Int) = Rat.floor ((pairs.length : ℚ) * r2) ∧
    res.test.length = pairs.length - res.train.length - res.val.length ∧
    ∀ pairs2 : List α, pairs2 = pairs →
      SplitYolo.split_dataset pairs2 [r1, r2, r3] seed = .ok res

namespace LabelIdx

/-- `if parts[0] != "0": parts[0] = "0"`. -/
def forceTokens (parts : List (List Char)) : List (List Char) :=
  if parts.getD 0 [] ≠ strC "0" then parts.set 0 (strC "0") else parts

/-- `if len(parts) > 5: parts = parts[:5]`. -/
def truncTokens (parts : List (List Char)) : List (List Char) :=
  if 5 < parts.length then parts.take 5 else parts

/-- One iteration of the rewrite loop: the emitted line and whether it
was flagged as changed. -/
def rewriteLine (line : List Char) : List Char × Bool :=
  if stripWs line = [] then (line, false)
  else
    (joinTokens (truncTokens (forceTokens (splitWs (stripWs line)))),
     decide ((splitWs (stripWs line)).getD 0 [] ≠ strC "0") ||
       decide (5 < (forceTokens (splitWs (stripWs line))).length))

/-- `rewrite_file` without dry-run: the changed flag and the text that
would be written (the write happens only when the flag is set). -/
def rewrite_file (text : List Char) : Bool × List Char :=
  (((splitNl text).map rewriteLine).any Prod.snd,
   joinNl ((splitNl text).map (fun l => (rewriteLine l).1)) ++
     (if endsNl text = true then ['\n'] else []))

/-- The file content after a non-dry run: rewritten only when flagged. -/
def rewriteResult (text : List Char) : List Char :=
  if (rewrite_file text).1 = true then (rewrite_file text).2 else text

end LabelIdx

/-- Conclusion of claim C5 (amended): when the normalizer rewrites a
file all of whose non-blank lines have at least five fields, the output
lines correspond one-to-one to the input lines, and every non-blank line
comes out as the token `"0"` followed by exactly the input's fields 2-5
(five fields in total). -/
def C5Concl (text : List Char) : Prop :=
  splitNl ((LabelIdx.rewrite_file text).2) =
    (splitNl text).map (fun l => (LabelIdx.rewriteLine l).1) ∧
  ∀ l ∈ splitNl text, stripWs l ≠ [] →
    splitWs ((LabelIdx.rewriteLine l).1) =
      strC "0" :: (splitWs (stripWs l)).tail.take 4 ∧
    (splitWs ((LabelIdx.rewriteLine l).1)).length = 5

namespace SyncYolo

/-- The loop body of `normalize_label` on one line's tokens: force class
`"0"`, then append the angle to a 5-field line or overwrite the 6th
field of a longer line with it. -/
def normalizeTokens (parts : List (List Char)) (angle : List Char) :
    List (List Char) :=
  let p := if parts ≠ [] then parts.set 0 (strC "0") else parts
  if p.length = 5 then p ++ [angle]
  else if 6 ≤ p.length then p.set 5 angle
  else p

/-- The non-blank lines, in order — the lines `normalize_label` keeps. -/
def keptLines (text : List Char) : List (List Char) :=
  (splitNl text).filter (fun l => decide (stripWs l ≠ []))

/-- `normalize_label`: rewrite each non-blank line and keep the final
newline when the input had one and something was emitted. -/
def normalize_label (text angle : List Char) : List Char :=
  joinNl ((keptLines text).map
      (fun l => joinTokens (normalizeTokens (splitWs l) angle))) ++
    (if endsNl text = true ∧ keptLines text ≠ [] then ['\n'] else [])

end SyncYolo

/-- Conclusion of claim C10: the output lines of `normalize_label` are
the normalized non-blank input lines in order, and for each such line
the class is forced to `"0"`; a line with six or more fields gets its
6th field overwritten with the configured angle value (all other fields
beyond the first kept), and a 5-field line gets the angle appended. -/
def C10Concl (text angle : List Char) : Prop :=
  splitNl (SyncYolo.normalize_label text angle) =
    (SyncYolo.keptLines text).map
      (fun l => joinTokens (SyncYolo.normalizeTokens (splitWs l) angle)) ∧
  ∀ l ∈ splitNl text, stripWs l ≠ [] →
    splitWs (joinTokens (SyncYolo.normalizeTokens (splitWs l) angle)) =
      SyncYolo.normalizeTokens (splitWs l) angle ∧
    (SyncYolo.normalizeTokens (splitWs l) angle).head? = some (strC "0") ∧
    (6 ≤ (splitWs l).length →
      SyncYolo.normalizeTokens (splitWs l) angle =
        ((splitWs l).set 0 (strC "0")).set 5 angle ∧
      (SyncYolo.normalizeTokens (splitWs l) angle)[5]? = some angle ∧
      (SyncYolo.normalizeTokens (splitWs l) angle).length = (splitWs l).length ∧
      ∀ i, i ≠ 0 → i ≠ 5 →
        (SyncYolo.normalizeTokens (splitWs l) angle)[i]? = (splitWs l)[i]?) ∧
    ((splitWs l).length = 5 →
      SyncYolo.normalizeTokens (splitWs l) angle =
        ((splitWs l).set 0 (strC "0")) ++ [angle])

namespace SyncYolo

inductive SplitName where
  | train
  | val
  | test
deriving DecidableEq

/-- First-match association lookup, standing for the stem → split dict
built by `map_stems_by_split` (later insertions are consed in front;
only presence matters for the claims below). -/
def lookupStem : List (String × SplitName) → String → Option SplitName
  | [], _ => none
  | (k, v) :: rest, s => if k = s then some v else lookupStem rest s

/-- The target dataset's state, abstracted to the two stem → split maps
that `map_stems_by_split` reads off the `images/` and `labels/` split
directories.  Copying a file with a recognised extension and unchanged
stem into `images/<split>/` (resp. `labels/<split>/`) corresponds
exactly to inserting the stem into the respective map. -/
structure TargetState where
  imgSplit : List (String × SplitName)
  lblSplit : List (String × SplitName)

/-- `sorted(set(source_imgs) | set(source_lbls))`. -/
def sortedStems (imgs lbls : List String) : List String :=
  ((imgs ++ lbls).dedup).mergeSort (fun a b => decide (a ≤ b))

/-- One iteration of the `copy_missing` loop for `stem`: the split is
chosen from the pre-scan dicts (`st0`, unchanged during the run, exactly
as in the source), the copies extend the accumulated state and bump the
counters. -/
def copyStep (st0 : TargetState) (srcImgs srcLbls : List String) (d : SplitName)
    (acc : TargetState × Nat × Nat) (stem : String) : TargetState × Nat × Nat :=
  let split := ((lookupStem st0.imgSplit stem).orElse
      (fun _ => lookupStem st0.lblSplit stem)).getD d
  let acc1 :=
    if lookupStem st0.imgSplit stem = none ∧ stem ∈ srcImgs then
      (⟨(stem, split) :: acc.1.imgSplit, acc.1.lblSplit⟩, acc.2.1 + 1, acc.2.2)
    else acc
  if lookupStem st0.lblSplit stem = none ∧ stem ∈ srcLbls then
    (⟨acc1.1.imgSplit, (stem, split) :: acc1.1.lblSplit⟩, acc1.2.1, acc1.2.2 + 1)
  else acc1

/-- `copy_missing`: returns the resulting target state together with the
`added_imgs` and `added_lbls` counters. -/
def copy_missing (srcImgs srcLbls : List String) (d : SplitName)
    (st0 : TargetState) : TargetState × Nat × Nat :=
  (sortedStems srcImgs srcLbls).foldl (copyStep st0 srcImgs srcLbls d) (st0, 0, 0)

end SyncYolo

/-- Conclusion of claim C4: after one `copy_missing` run, every source
stem is present in the resulting target mapping, and a second run over
the resulting state performs zero image copies and zero label copies and
leaves the state untouched. -/
def C4Concl (srcImgs srcLbls : List String) (d : SyncYolo.SplitName)
    (st0 : SyncYolo.TargetState) : Prop :=
  (∀ s ∈ srcImgs,
    SyncYolo.lookupStem (SyncYolo.copy_missing srcImgs srcLbls d st0).1.imgSplit s ≠ none) ∧
  (∀ s ∈ srcLbls,
    SyncYolo.lookupStem (SyncYolo.copy_missing srcImgs srcLbls d st0).1.lblSplit s ≠ none) ∧
  SyncYolo.copy_missing srcImgs srcLbls d (SyncYolo.copy_missing srcImgs srcLbls d st0).1 =
    ((SyncYolo.copy_missing srcImgs srcLbls d st0).1, 0, 0)

namespace Api

/-- Outcome of the `/predict` handler: an `HTTPException` with a status
code and detail, or a streamed JPEG response produced from an inference
result. -/
inductive PredictResponse (Out : Type) where
  | clientError (status : Nat) (detail : List Char)
  | okJpeg (result : Out)
deriving DecidableEq

/-- The `/predict` handler.  `decode` models
`Image.open(io.BytesIO(contents)).convert("RGB")` (`none` when PIL
raises), and `infer` models the inference call plus the annotated-image
rendering; both are parameters because they live in external libraries. -/
def predict {Img Out : Type} (decode : List UInt8 → Option Img)
    (infer : Img → Out) (contents : List UInt8) : PredictResponse Out :=
  if contents.isEmpty then
    .clientError 400 (strC "Nenhum arquivo foi enviado.")
  else
    match decode contents with
    | none => .clientError 400 (strC "Não foi possível abrir a imagem.")
    | some img => .okJpeg (infer img)

end Api

namespace Auditor

/-- A filesystem: an association of paths to contents. -/
def FS : Type := List (List Char × List Char)

inductive FsOp where
  | read (path : List Char)
  | write (path : List Char) (content : List Char)
  | print (msg : List Char)

def isMutating : FsOp → Bool
  | .write _ _ => true
  | _ => false

/-- Semantics of one operation on the filesystem. -/
def runOp (fs : FS) : FsOp → FS
  | .read _ => fs
  | .print _ => fs
  | .write p c => ((p, c) :: (List.filter (fun e => decide (e.1 ≠ p)) fs : FS) : FS)

def runOps (fs : FS) (ops : List FsOp) : FS := ops.foldl runOp fs

/-- `dir / name`. -/
def pathJoin (a b : List Char) : List Char := a ++ '/' :: b

def dropPre : List Char → List Char → Option (List Char)
  | [], rest => some rest
  | _ :: _, [] => none
  | c :: cs, d :: ds => if c = d then dropPre cs ds else none

/-- The names directly under `dir` (non-recursive glob `*`). -/
def namesUnder (fs : FS) (dir : List Char) : List (List Char) :=
  (List.map Prod.fst (fs : List (List Char × List Char))).filterMap (fun p =>
    match dropPre (dir ++ ['/']) p with
    | some name => if name ≠ [] ∧ ¬('/' ∈ name) then some name else none
    | none => none)

def existsFile (fs : FS) (p : List Char) : Bool :=
  List.any (fs : List (List Char × List Char)) (fun e => decide (e.1 = p))

def readFS (fs : FS) (p : List Char) : List Char :=
  match List.find? (fun e => decide (e.1 = p)) (fs : List (List Char × List Char)) with
  | some e => e.2
  | none => []

/-- Stem and suffix of a file name, split at the last dot (`pathlib`'s
convention for ordinary names). -/
def splitExtName (name : List Char) : List Char × List Char :=
  let after := (name.reverse.takeWhile (fun c => decide (c ≠ '.'))).length
  if after = name.length then (name, [])
  else (name.take (name.length - after - 1), name.drop (name.length - after - 1))

def lowerStr (l : List Char) : List Char := l.map Char.toLower

def imageExts : List (List Char) :=
  [strC ".jpg", strC ".jpeg", strC ".png", strC ".bmp"]

/-- The `--check-format` per-line validation: 6 fields, integer class,
parseable floats, normalized ranges.  (`math.isfinite` cannot fail on
exact rationals and the special float values are collapsed, so it is
not re-checked here; the result only feeds a печать.) -/
def validLabelLine (line : List Char) : Bool :=
  if stripWs line = [] then true
  else
    if (splitWs line).length ≠ 6 then false
    else
      if ¬((splitWs line).getD 0 [] ≠ [] ∧
          ((splitWs line).getD 0 []).all Char.isDigit = true) then false
      else
        match pyFloat ((splitWs line).getD 1 []), pyFloat ((splitWs line).getD 2 []),
            pyFloat ((splitWs line).getD 3 []), pyFloat ((splitWs line).getD 4 []),
            pyFloat ((splitWs line).getD 5 []) with
        | some x, some y, some w, some h, some _ =>
          decide (0 ≤ x ∧ x ≤ 1 ∧ 0 ≤ y ∧ y ≤ 1 ∧ 0 < w ∧ w ≤ 1 ∧ 0 < h ∧ h ≤ 1)
        | _, _, _, _, _ => false

structure AuditArgs where
  root : List Char
  splits : List (List Char)
  limit : Nat
  checkFormat : Bool
  inspectCache : Bool

def imgFilesOf (fs : FS) (imgDir : List Char) : List (List Char) :=
  (namesUnder fs imgDir).filter (fun n => decide (lowerStr (splitExtName n).2 ∈ imageExts))

def lblFilesOf (fs : FS) (lblDir : List Char) : List (List Char) :=
  (namesUnder fs lblDir).filter (fun n => decide ((splitExtName n).2 = strC ".txt"))

/-- The operations one split's audit performs: count print, orphan
reports, optional per-file format reads and report, optional cache read
and report. -/
def auditSplitOps (fs : FS) (a : AuditArgs) (split : List Char) : List FsOp :=
  let imgDir := a.root ++ strC "/images/" ++ split
  let lblDir := a.root ++ strC "/labels/" ++ split
  let imgs := imgFilesOf fs imgDir
  let lbls := lblFilesOf fs lblDir
  let missingImg := lbls.filter (fun n =>
    !(imageExts.any (fun e => existsFile fs (pathJoin imgDir ((splitExtName n).1 ++ e)))))
  let lblStems := lbls.map (fun n => (splitExtName n).1)
  let missingLbl := imgs.filter (fun n => decide ((splitExtName n).1 ∉ lblStems))
  let cachePath := a.root ++ strC "/labels/" ++ split ++ strC ".cache"
  [FsOp.print (split ++ strC ": contagem de imgs e labels")] ++
  (if !missingImg.isEmpty then [FsOp.print (strC "labels sem imagem")] else []) ++
  (if !missingLbl.isEmpty then [FsOp.print (strC "imagens sem label")] else []) ++
  (if a.checkFormat then
    lbls.map (fun n => FsOp.read (pathJoin lblDir n)) ++
      (if lbls.any (fun n =>
          (splitNl (readFS fs (pathJoin lblDir n))).any
            (fun line => !(validLabelLine line))) then
        [FsOp.print (strC "linhas inválidas")]
      else [])
  else []) ++
  (if a.inspectCache then
    (if existsFile fs cachePath then
      [FsOp.read cachePath, FsOp.print (strC "resumo do cache")]
    else [FsOp.print (strC "cache não encontrado")])
  else [])

/-- The whole run of `main`. -/
def auditor_main (fs : FS) (a : AuditArgs) : List FsOp :=
  a.splits.flatMap (auditSplitOps fs a)

end Auditor

namespace PyStr

@[simp] theorem splitWs_nil : splitWs [] = [] := rfl
theorem splitWs_cons (c : Char) (cs : List Char) :
    splitWs (c :: cs) =
      if isSpace c then splitWs cs else splitWsStep c cs (splitWs cs) := rfl

theorem splitWs_space_cons {c : Char} (hc : isSpace c = true) (cs : List Char) :
    splitWs (c :: cs) = splitWs cs := by
  rw [splitWs_cons, if_pos hc]

theorem splitWsStep_nil (c : Char) (r : List (List Char)) :
    splitWsStep c [] r = [[c]] := rfl

theorem splitWsStep_space {d : Char} (hd : isSpace d = true) (c : Char)
    (ds : List Char) (r : List (List Char)) :
    splitWsStep c (d :: ds) r = [c] :: r := by
  simp [splitWsStep, hd]

theorem splitWsStep_nonspace_nil {d : Char} (hd : isSpace d = false) (c : Char)
    (ds : List Char) : splitWsStep c (d :: ds) [] = [[c]] := by
  simp [splitWsStep, hd]

theorem splitWsStep_nonspace_cons {d : Char} (hd : isSpace d = false) (c : Char)
    (ds : List Char) (t : List Char) (ts : List (List Char)) :
    splitWsStep c (d :: ds) (t :: ts) = (c :: t) :: ts := by
  simp [splitWsStep, hd]

theorem splitWs_sound : ∀ l : List Char, ∀ t ∈ splitWs l, wfToken t := by
  intro l
  induction l with
  | nil => intro t ht; simp at ht
  | cons c cs ih =>
    intro t ht
    cases hc : isSpace c with
    | true =>
      rw [splitWs_space_cons hc] at ht
      exact ih t ht
    | false =>
      rw [splitWs_cons, if_neg (by simp [hc])] at ht
      cases cs with
      | nil =>
        rw [splitWsStep_nil] at ht
        simp at ht
        subst ht
        exact ⟨by simp, by simp [hc]⟩
      | cons d ds =>
        cases hd : isSpace d with
        | true =>
          rw [splitWsStep_space hd] at ht
          rcases List.mem_cons.mp ht with ht | ht
          · subst ht
            exact ⟨by simp, by simp [hc]⟩
          · exact ih t ht
        | false =>
          rcases hr : splitWs (d :: ds) with _ | ⟨t0, ts⟩
          · rw [hr, splitWsStep_nonspace_nil hd] at ht
            simp at ht
            subst ht
            exact ⟨by simp, by simp [hc]⟩
          · rw [hr, splitWsStep_nonspace_cons hd] at ht
            rcases List.mem_cons.mp ht with ht | ht
            · subst ht
              have h0 := ih t0 (by rw [hr]; exact List.mem_cons_self _ _)
              refine ⟨by simp, ?_⟩
              intro x hx
              rcases List.mem_cons.mp hx with hx | hx
              · simp [hx, hc]
              · exact h0.2 x hx
            · exact ih t (by rw [hr]; exact List.mem_cons_of_mem _ ht)

/-- Splitting a nonempty whitespace-free token followed by a whitespace
boundary (or the end of the string) yields the token and then the split
of the remainder. -/
theorem splitWs_token_append (t rest : List Char) (hwf : wfToken t)
    (hrest : ∀ d, rest.head? = some d → isSpace d = true) :
    splitWs (t ++ rest) = t :: splitWs rest := by
  induction t with
  | nil => exact absurd rfl hwf.1
  | cons c t' ih =>
    have hc : isSpace c = false := hwf.2 c (List.mem_cons_self _ _)
    cases t' with
    | nil =>
      cases rest with
      | nil => simp [splitWs_cons, hc, splitWsStep_nil]
      | cons d ds =>
        have hd : isSpace d = true := hrest d rfl
        rw [List.cons_append, List.nil_append, splitWs_cons, if_neg (by simp [hc])]
        rw [splitWsStep_space hd, splitWs_space_cons hd]
    | cons c2 t'' =>
      have hwf' : wfToken (c2 :: t'') :=
        ⟨by simp, fun x hx => hwf.2 x (List.mem_cons_of_mem _ hx)⟩
      have ih' := ih hwf'
      have hc2 : isSpace c2 = false := hwf.2 c2 (by simp)
      rw [List.cons_append, splitWs_cons, if_neg (by simp [hc])]
      have hcons : (c2 :: t'') ++ rest = c2 :: (t'' ++ rest) := rfl
      rw [hcons] at ih' ⊢
      rw [ih']
      rw [splitWsStep_nonspace_cons hc2]

/-- Round trip: re-splitting a single-space join of well-formed tokens
recovers exactly the tokens. -/
theorem splitWs_joinTokens (ts : List (List Char)) (h : ∀ t ∈ ts, wfToken t) :
    splitWs (joinTokens ts) = ts := by
  induction ts with
  | nil => simp [joinTokens, List.intercalate]
  | cons t rest ih =>
    rcases hr : rest with _ | ⟨u, us⟩
    · have hj : joinTokens [t] = t ++ [] := by
        simp [joinTokens, List.intercalate]
      rw [hj, splitWs_token_append t [] (h t (by simp)) (by intro d hd; simp at hd)]
      simp
    · have hjoin : joinTokens (t :: u :: us) = t ++ (' ' :: joinTokens (u :: us)) := by
        simp [joinTokens, List.intercalate]
      rw [hjoin]
      rw [splitWs_token_append t _ (h t (by simp))
        (by intro d hd; simp at hd; subst hd; decide)]
      rw [splitWs_space_cons (by decide)]
      rw [← hr, ih (fun x hx => h x (List.mem_cons_of_mem _ hx)), hr]

@[simp] theorem splitNl_nil : splitNl [] = [] := rfl
theorem splitNl_cons (c : Char) (cs : List Char) :
    splitNl (c :: cs) =
      if c = '\n' then [] :: splitNl cs
      else
        match splitNl cs with
        | [] => [[c]]
        | t :: ts => (c :: t) :: ts := rfl

theorem splitNl_newline (cs : List Char) :
    splitNl ('\n' :: cs) = [] :: splitNl cs := by
  rw [splitNl_cons, if_pos rfl]

theorem splitNl_ne_nil {l : List Char} (h : l ≠ []) : splitNl l ≠ [] := by
  cases l with
  | nil => exact absurd rfl h
  | cons c cs =>
    rw [splitNl_cons]
    by_cases hc : c = '\n'
    · simp [hc]
    · rw [if_neg hc]
      rcases splitNl cs with _ | ⟨t, ts⟩ <;> simp

theorem splitNl_no_newline : ∀ l : List Char, ∀ t ∈ splitNl l, ∀ c ∈ t, c ≠ '\n' := by
  intro l
  induction l with
  | nil => simp
  | cons c cs ih =>
    intro t ht x hx
    rw [splitNl_cons] at ht
    by_cases hc : c = '\n'
    · rw [if_pos hc] at ht
      rcases List.mem_cons.mp ht with ht | ht
      · subst ht; simp at hx
      · exact ih t ht x hx
    · rw [if_neg hc] at ht
      rcases hr : splitNl cs with _ | ⟨t0, ts⟩
      · rw [hr] at ht
        simp at ht
        subst ht
        rcases List.mem_singleton.mp hx with rfl
        exact hc
      · rw [hr] at ht
        rcases List.mem_cons.mp ht with ht | ht
        · subst ht
          rcases List.mem_cons.mp hx with hx | hx
          · subst hx; exact hc
          · exact ih t0 (by rw [hr]; exact List.mem_cons_self _ _) x hx
        · exact ih t (by rw [hr]; exact List.mem_cons_of_mem _ ht) x hx

theorem splitNl_line_append (t rest : List Char) (ht : ∀ c ∈ t, c ≠ '\n') :
    splitNl (t ++ '\n' :: rest) = t :: splitNl rest := by
  induction t with
  | nil => simp [splitNl_newline]
  | cons c t' ih =>
    have hc : c ≠ '\n' := ht c (List.mem_cons_self _ _)
    have ih' := ih (fun x hx => ht x (List.mem_cons_of_mem _ hx))
    rw [List.cons_append, splitNl_cons, if_neg hc, ih']

theorem splitNl_single (t : List Char) (hne : t ≠ []) (ht : ∀ c ∈ t, c ≠ '\n') :
    splitNl t = [t] := by
  induction t with
  | nil => exact absurd rfl hne
  | cons c t' ih =>
    have hc : c ≠ '\n' := ht c (List.mem_cons_self _ _)
    rw [splitNl_cons, if_neg hc]
    cases t' with
    | nil => simp
    | cons c2 t'' =>
      rw [ih (by simp) (fun x hx => ht x (List.mem_cons_of_mem _ hx))]

/-- Round trip: splitting a newline-join that ends with a final newline. -/
theorem splitNl_joinNl_endNl (ls : List (List Char)) (hne : ls ≠ [])
    (h : ∀ t ∈ ls, ∀ c ∈ t, c ≠ '\n') :
    splitNl (joinNl ls ++ ['\n']) = ls := by
  induction ls with
  | nil => exact absurd rfl hne
  | cons t rest ih =>
    cases rest with
    | nil =>
      have hj : joinNl [t] ++ ['\n'] = t ++ '\n' :: [] := by
        simp [joinNl, List.intercalate]
      rw [hj, splitNl_line_append t [] (h t (by simp))]
      simp
    | cons u us =>
      have hj : joinNl (t :: u :: us) ++ ['\n'] = t ++ '\n' :: (joinNl (u :: us) ++ ['\n']) := by
        simp [joinNl, List.intercalate]
      rw [hj, splitNl_line_append t _ (h t (by simp))]
      rw [ih (by simp) (fun x hx => h x (List.mem_cons_of_mem _ hx))]

/-- Round trip: splitting a newline-join with no final newline, provided
the last line is nonempty. -/
theorem splitNl_joinNl (ls : List (List Char)) (hne : ls ≠ [])
    (h : ∀ t ∈ ls, ∀ c ∈ t, c ≠ '\n')
    (hlast : ∀ t, ls.getLast? = some t → t ≠ []) :
    splitNl (joinNl ls) = ls := by
  induction ls with
  | nil => exact absurd rfl hne
  | cons t rest ih =>
    cases rest with
    | nil =>
      have hj : joinNl [t] = t := by simp [joinNl, List.intercalate]
      rw [hj, splitNl_single t (hlast t (by simp)) (h t (by simp))]
    | cons u us =>
      have hj : joinNl (t :: u :: us) = t ++ '\n' :: joinNl (u :: us) := by
        simp [joinNl, List.intercalate]
      rw [hj, splitNl_line_append t _ (h t (by simp))]
      rw [ih (by simp) (fun x hx => h x (List.mem_cons_of_mem _ hx))
        (fun x hx => hlast x (by rw [List.getLast?_cons_cons]; exact hx))]

/-- If the text does not end with a newline, the last line produced by
`splitNl` is nonempty. -/
theorem splitNl_last_ne_nil {l : List Char} (hend : l.getLast? ≠ some '\n') :
    ∀ t, (splitNl l).getLast? = some t → t ≠ [] := by
  induction l with
  | nil => simp
  | cons c cs ih =>
    intro t ht
    cases cs with
    | nil =>
      have hc : c ≠ '\n' := by
        intro hc; exact hend (by simp [hc])
      rw [splitNl_cons, if_neg hc] at ht
      simp at ht
      subst ht
      simp
    | cons d ds =>
      have hend' : (d :: ds).getLast? ≠ some '\n' := by
        rwa [List.getLast?_cons_cons] at hend
      have ih' := ih hend'
      rw [splitNl_cons] at ht
      by_cases hc : c = '\n'
      · rw [if_pos hc] at ht
        rcases hr : splitNl (d :: ds) with _ | ⟨t0, ts⟩
        · exact absurd hr (splitNl_ne_nil (by simp))
        · rw [hr, List.getLast?_cons_cons] at ht
          exact ih' t (by rw [hr]; exact ht)
      · rw [if_neg hc] at ht
        rcases hr : splitNl (d :: ds) with _ | ⟨t0, ts⟩
        · exact absurd hr (splitNl_ne_nil (by simp))
        · rw [hr] at ht
          cases ts with
          | nil =>
            simp at ht
            subst ht
            simp
          | cons t1 ts' =>
            rw [List.getLast?_cons_cons] at ht
            exact ih' t (by rw [hr, List.getLast?_cons_cons]; exact ht)

theorem stripWs_eq_self {l : List Char}
    (hhead : ∀ c, l.head? = some c → isSpace c = false)
    (hlast : ∀ c, l.getLast? = some c → isSpace c = false) :
    stripWs l = l := by
  unfold stripWs
  have h1 : l.dropWhile isSpace = l := by
    cases l with
    | nil => simp
    | cons c cs =>
      rw [List.dropWhile_cons_of_neg]
      simp [hhead c rfl]
  rw [h1]
  have h2 : l.reverse.dropWhile isSpace = l.reverse := by
    cases hr : l.reverse with
    | nil => simp
    | cons c cs =>
      rw [List.dropWhile_cons_of_neg]
      have : l.getLast? = some c := by
        rw [← List.head?_reverse, hr]; rfl
      simp [hlast c this]
  rw [h2, List.reverse_reverse]

theorem stripWs_of_all_space {l : List Char} (h : ∀ c ∈ l, isSpace c = true) :
    stripWs l = [] := by
  unfold stripWs
  have h1 : l.dropWhile isSpace = [] := by
    induction l with
    | nil => simp
    | cons c cs ih =>
      rw [List.dropWhile_cons_of_pos (by simp [h c (List.mem_cons_self _ _)])]
      exact ih (fun x hx => h x (List.mem_cons_of_mem _ hx))
  rw [h1]
  simp

theorem splitWs_eq_nil_of_all_space {l : List Char} (h : ∀ c ∈ l, isSpace c = true) :
    splitWs l = [] := by
  induction l with
  | nil => simp
  | cons c cs ih =>
    rw [splitWs_space_cons (h c (List.mem_cons_self _ _))]
    exact ih (fun x hx => h x (List.mem_cons_of_mem _ hx))

theorem all_space_of_splitWs_eq_nil : ∀ {l : List Char}, splitWs l = [] →
    ∀ c ∈ l, isSpace c = true := by
  intro l
  induction l with
  | nil => simp
  | cons c cs ih =>
    intro hsp x hx
    cases hc : isSpace c with
    | true =>
      rw [splitWs_space_cons hc] at hsp
      rcases List.mem_cons.mp hx with hx | hx
      · subst hx; exact hc
      · exact ih hsp x hx
    | false =>
      exfalso
      rw [splitWs_cons, if_neg (by simp [hc])] at hsp
      cases cs with
      | nil => simp [splitWsStep_nil] at hsp
      | cons d ds =>
        cases hd : isSpace d with
        | true => rw [splitWsStep_space hd] at hsp; simp at hsp
        | false =>
          rcases hr : splitWs (d :: ds) with _ | ⟨t0, ts⟩
          · rw [hr, splitWsStep_nonspace_nil hd] at hsp; simp at hsp
          · rw [hr, splitWsStep_nonspace_cons hd] at hsp; simp at hsp

theorem splitWs_ne_nil_of_strip_ne_nil {l : List Char} (h : stripWs l ≠ []) :
    splitWs l ≠ [] := by
  intro hsp
  exact h (stripWs_of_all_space (all_space_of_splitWs_eq_nil hsp))

theorem joinTokens_ne_nil {ts : List (List Char)} (hne : ts ≠ [])
    (h : ∀ t ∈ ts, wfToken t) : joinTokens ts ≠ [] := by
  cases ts with
  | nil => exact absurd rfl hne
  | cons t rest =>
    cases rest with
    | nil =>
      have hj : joinTokens [t] = t := by simp [joinTokens, List.intercalate]
      rw [hj]; exact (h t (by simp)).1
    | cons u us =>
      have hj : joinTokens (t :: u :: us) = t ++ ' ' :: joinTokens (u :: us) := by
        simp [joinTokens, List.intercalate]
      rw [hj]
      rcases ht : t with _ | _
      · exact absurd ht (h t (by simp)).1
      · simp

theorem joinTokens_head_nonspace {ts : List (List Char)}
    (h : ∀ t ∈ ts, wfToken t) :
    ∀ c, (joinTokens ts).head? = some c → isSpace c = false := by
  intro c hc
  cases ts with
  | nil => simp [joinTokens, List.intercalate] at hc
  | cons t rest =>
    have hwf := h t (by simp)
    have hj : ∃ l2, joinTokens (t :: rest) = t ++ l2 := by
      cases rest with
      | nil => exact ⟨[], by simp [joinTokens, List.intercalate]⟩
      | cons u us =>
        exact ⟨' ' :: joinTokens (u :: us), by simp [joinTokens, List.intercalate]⟩
    rcases hj with ⟨l2, hj⟩
    rw [hj, List.head?_append] at hc
    rcases ht : t with _ | ⟨c0, t'⟩
    · exact absurd ht hwf.1
    · rw [ht] at hc
      simp at hc
      exact hwf.2 c (by rw [ht]; simp [hc])

theorem joinTokens_last_nonspace : ∀ ts : List (List Char),
    (∀ t ∈ ts, wfToken t) →
    ∀ c, (joinTokens ts).getLast? = some c → isSpace c = false := by
  intro ts
  induction ts with
  | nil => intro _ c hc; simp [joinTokens, List.intercalate] at hc
  | cons t rest ih =>
    intro h c hc
    cases rest with
    | nil =>
      have hj : joinTokens [t] = t := by simp [joinTokens, List.intercalate]
      rw [hj] at hc
      exact (h t (by simp)).2 c (List.mem_of_getLast?_eq_some hc)
    | cons u us =>
      have hj : joinTokens (t :: u :: us) = t ++ ' ' :: joinTokens (u :: us) := by
        simp [joinTokens, List.intercalate]
      rw [hj, List.getLast?_append] at hc
      have hjne : joinTokens (u :: us) ≠ [] :=
        joinTokens_ne_nil (by simp) (fun x hx => h x (List.mem_cons_of_mem _ hx))
      rcases hju : joinTokens (u :: us) with _ | ⟨j0, js⟩
      · exact absurd hju hjne
      · rw [hju, List.getLast?_cons_cons] at hc
        have : (joinTokens (u :: us)).getLast? = some c := by
          rw [hju]
          rcases js with _ | _
          · simpa using hc
          · simpa using hc
        exact ih (fun x hx => h x (List.mem_cons_of_mem _ hx)) c this

/-- The head and last characters of a join of well-formed tokens are not
whitespace, so Python's `strip` leaves the join unchanged. -/
theorem stripWs_joinTokens (ts : List (List Char)) (h : ∀ t ∈ ts, wfToken t) :
    stripWs (joinTokens ts) = joinTokens ts :=
  stripWs_eq_self (joinTokens_head_nonspace h) (joinTokens_last_nonspace ts h)

theorem getLast?_dropWhile_ne_nil {p : Char → Bool} {y : List Char}
    (hy : y.dropWhile p ≠ []) : (y.dropWhile p).getLast? = y.getLast? := by
  rcases List.dropWhile_suffix (l := y) p with ⟨pre, hpre⟩
  calc (y.dropWhile p).getLast?
      = (pre ++ y.dropWhile p).getLast? := (List.getLast?_append_of_ne_nil _ hy).symm
    _ = y.getLast? := by rw [hpre]

theorem stripWs_head_nonspace {l : List Char} :
    ∀ c, (stripWs l).head? = some c → isSpace c = false := by
  intro c hc
  unfold stripWs at hc
  rw [List.head?_reverse] at hc
  have hYne : (l.dropWhile isSpace).reverse.dropWhile isSpace ≠ [] := by
    intro h; rw [h] at hc; simp at hc
  rw [getLast?_dropWhile_ne_nil hYne, List.getLast?_reverse] at hc
  have h := List.head?_dropWhile_not isSpace l
  rw [hc] at h
  simpa using h

end PyStr

namespace ObbCorners

theorem convert_line_error_of_bad (fmt : ℝ → List Char) (angleFmtDeg : Bool)
    (defaultAngle : ℚ) (orderGrouped : Bool) (parts : List (List Char))
    (hbad : badNumericLine parts) :
    ∃ e, convert_line fmt angleFmtDeg defaultAngle orderGrouped parts = .error e := by
  obtain ⟨h5, h9, hnone⟩ := hbad
  unfold convert_line
  rw [if_neg (by omega), if_neg h9]
  rcases h1 : pyFloat (parts.getD 1 []) with _ | v1 <;>
    rcases h2 : pyFloat (parts.getD 2 []) with _ | v2 <;>
      rcases h3 : pyFloat (parts.getD 3 []) with _ | v3 <;>
        rcases h4 : pyFloat (parts.getD 4 []) with _ | v4 <;>
          rcases h6 : (if 6 ≤ parts.length then pyFloat (parts.getD 5 []) else some defaultAngle)
            with _ | v5 <;>
            simp_all

/-- The four corners written out explicitly. -/
theorem rotate_points_eq (cx cy w h a : ℝ) :
    rotate_points cx cy w h a =
      [(cx + (-(w / 2) * Real.cos a - -(h / 2) * Real.sin a),
        cy + (-(w / 2) * Real.sin a + -(h / 2) * Real.cos a)),
       (cx + (w / 2 * Real.cos a - -(h / 2) * Real.sin a),
        cy + (w / 2 * Real.sin a + -(h / 2) * Real.cos a)),
       (cx + (w / 2 * Real.cos a - h / 2 * Real.sin a),
        cy + (w / 2 * Real.sin a + h / 2 * Real.cos a)),
       (cx + (-(w / 2) * Real.cos a - h / 2 * Real.sin a),
        cy + (-(w / 2) * Real.sin a + h / 2 * Real.cos a))] := by
  simp [rotate_points]

theorem sqrt_w_edge (W A x y : ℝ) (hW : 0 ≤ W) (hx : x = W * Real.cos A)
    (hy : y = W * Real.sin A) : Real.sqrt (x ^ 2 + y ^ 2) = W := by
  subst hx hy
  have h : (W * Real.cos A) ^ 2 + (W * Real.sin A) ^ 2 = W ^ 2 := by
    have hs := Real.sin_sq_add_cos_sq A
    linear_combination W ^ 2 * hs
  rw [h, Real.sqrt_sq hW]

theorem sqrt_h_edge (H A x y : ℝ) (hH : 0 ≤ H) (hx : x = -(H * Real.sin A))
    (hy : y = H * Real.cos A) : Real.sqrt (x ^ 2 + y ^ 2) = H := by
  subst hx hy
  have h : (-(H * Real.sin A)) ^ 2 + (H * Real.cos A) ^ 2 = H ^ 2 := by
    have hs := Real.sin_sq_add_cos_sq A
    linear_combination H ^ 2 * hs
  rw [h, Real.sqrt_sq hH]

theorem div_edge (W c x : ℝ) (hW : W ≠ 0) (hx : x = W * c) : x / W = c := by
  subst hx
  exact mul_div_cancel_left₀ c hW

end ObbCorners

/-- C2: re-deriving the geometry from the produced corners reproduces the
original: exactly for the decimal axis-aligned converter, and for the
oriented converter the center, the edge lengths (width and height, given
the spec's invariant that they are positive) and the angle's
sine/cosine are recovered. -/
theorem c2_corner_roundtrip (xc yc w h : ℚ) (cx cy W H A : ℝ)
    (hW : 0 < W) (hH : 0 < H) : C2Concl xc yc w h cx cy W H A := by
  constructor
  · exact ⟨xc - w / 2, xc + w / 2, yc - h / 2, yc + h / 2,
      by simp [BboxPoly.to_polygon], by ring, by ring, by ring, by ring⟩
  · refine ⟨_, _, _, _, ObbCorners.rotate_points_eq cx cy W H A,
      ?_, ?_, ?_, ?_, ?_, ?_, ?_, ?_, ?_, ?_, ?_, ?_⟩
    all_goals dsimp only
    · ring
    · ring
    · ring
    · ring
    · ring
    · ring
    · ring
    · ring
    · exact ObbCorners.sqrt_w_edge W A _ _ hW.le (by ring) (by ring)
    · exact ObbCorners.sqrt_h_edge H A _ _ hH.le (by ring) (by ring)
    · exact ObbCorners.div_edge W _ _ hW.ne' (by ring)
    · exact ObbCorners.div_edge W _ _ hW.ne' (by ring)

/-- Witness for C2 at a concrete box. -/
theorem c2_corner_roundtrip_witness : C2Concl 0 0 1 1 0 0 1 1 0 :=
  c2_corner_roundtrip 0 0 1 1 0 0 1 1 0 one_pos one_pos

/-- C6: a line that already has exactly 9 whitespace-separated tokens is
passed through by `convert_line` with the same 9 tokens, rejoined by
single spaces, for every angle format, default angle and output
ordering; re-splitting the output recovers the very same tokens. -/
theorem c6_passthrough_9 (fmt : ℝ → List Char) (deg : Bool) (da : ℚ)
    (grouped : Bool) (parts : List (List Char)) (h9 : parts.length = 9) :
    ObbCorners.convert_line fmt deg da grouped parts = .ok (joinTokens parts) ∧
    ((∀ t ∈ parts, wfToken t) → splitWs (joinTokens parts) = parts) := by
  constructor
  · unfold ObbCorners.convert_line
    rw [if_neg (by omega), if_pos h9]
  · exact fun h => splitWs_joinTokens parts h

/-- Witness for C6 on a concrete 9-token line. -/
theorem c6_passthrough_9_witness :
    ObbCorners.convert_line (fun _ => []) false 0 true
        [strC "1", strC "a", strC "b", strC "c", strC "d",
         strC "e", strC "f", strC "g", strC "h"] =
      .ok (joinTokens [strC "1", strC "a", strC "b", strC "c", strC "d",
         strC "e", strC "f", strC "g", strC "h"]) ∧
    ((∀ t ∈ [strC "1", strC "a", strC "b", strC "c", strC "d",
         strC "e", strC "f", strC "g", strC "h"], wfToken t) →
      splitWs (joinTokens [strC "1", strC "a", strC "b", strC "c", strC "d",
         strC "e", strC "f", strC "g", strC "h"]) =
        [strC "1", strC "a", strC "b", strC "c", strC "d",
         strC "e", strC "f", strC "g", strC "h"]) :=
  c6_passthrough_9 (fun _ => []) false 0 true _ (by decide)

namespace ObbCorners

theorem processGo_error (convert : List (List Char) → Except (List Char) (List Char))
    (path : List Char) :
    ∀ (lines : List (List Char)) (acc : List (List Char) × Bool),
      (∃ line ∈ lines, stripWs line ≠ [] ∧
        ∃ e0, convert (splitWs (stripWs line)) = .error e0) →
      ∃ e, processGo convert path lines acc =
        .error (strC "Erro no arquivo " ++ path ++ strC ": " ++ e) := by
  intro lines
  induction lines with
  | nil => intro acc h; simp at h
  | cons line rest ih =>
    intro acc h
    by_cases hs : stripWs line = []
    · have hrest : ∃ l ∈ rest, stripWs l ≠ [] ∧
          ∃ e0, convert (splitWs (stripWs l)) = .error e0 := by
        rcases h with ⟨l, hl, hlstrip, he⟩
        rcases List.mem_cons.mp hl with rfl | hl
        · exact absurd hs hlstrip
        · exact ⟨l, hl, hlstrip, he⟩
      rcases ih _ hrest with ⟨e, he⟩
      refine ⟨e, ?_⟩
      rw [processGo, if_pos hs]
      exact he
    · rcases hc : convert (splitWs (stripWs line)) with e0 | conv
      · refine ⟨e0, ?_⟩
        rw [processGo, if_neg hs, hc]
      · have hrest : ∃ l ∈ rest, stripWs l ≠ [] ∧
            ∃ e0, convert (splitWs (stripWs l)) = .error e0 := by
          rcases h with ⟨l, hl, hlstrip, he⟩
          rcases List.mem_cons.mp hl with rfl | hl
          · rcases he with ⟨e0, he⟩
            rw [hc] at he
            exact absurd he (by simp)
          · exact ⟨l, hl, hlstrip, he⟩
        rcases ih _ hrest with ⟨e, he⟩
        refine ⟨e, ?_⟩
        rw [processGo, if_neg hs, hc]
        exact he

end ObbCorners

/-- C7: if any non-blank line of the file has between 5 and 8 fields and
one of the numeric fields the converter parses is rejected by Python's
`float()`, then `process_file` aborts with an error message naming the
offending file, and no output content is produced (the `.error` result
is raised before any write). -/
theorem c7_process_file_aborts (fmt : ℝ → List Char) (deg : Bool) (da : ℚ)
    (grouped : Bool) (path text : List Char)
    (hbad : ∃ line ∈ splitNl text, stripWs line ≠ [] ∧
      ObbCorners.badNumericLine (splitWs (stripWs line))) :
    ∃ e, ObbCorners.process_file fmt deg da grouped path text = .error e ∧
      ∃ pre post, e = pre ++ path ++ post := by
  have h : ∃ line ∈ splitNl text, stripWs line ≠ [] ∧
      ∃ e0, ObbCorners.convert_line fmt deg da grouped (splitWs (stripWs line)) = .error e0 := by
    rcases hbad with ⟨l, hl, hlstrip, hb⟩
    exact ⟨l, hl, hlstrip, ObbCorners.convert_line_error_of_bad fmt deg da grouped _ hb⟩
  rcases ObbCorners.processGo_error _ path (splitNl text) ([], false) h with ⟨e, he⟩
  refine ⟨strC "Erro no arquivo " ++ path ++ strC ": " ++ e, ?_,
    strC "Erro no arquivo ", strC ": " ++ e, by simp⟩
  unfold ObbCorners.process_file
  rw [he]

/-- Witness for C7: a label file whose second field is not a number. -/
theorem c7_process_file_aborts_witness :
    ∃ e, ObbCorners.process_file (fun _ => []) false 0 true
        (strC "box_motos/a.txt") (strC "0 x 0 0 0\n") = .error e ∧
      ∃ pre post, e = pre ++ strC "box_motos/a.txt" ++ post :=
  c7_process_file_aborts (fun _ => []) false 0 true _ _ (by decide)

namespace SplitYolo

theorem cons_set_perm : ∀ (xs : List α) (k : Nat) (x b : α),
    xs[k]? = some b → List.Perm (b :: xs.set k x) (x :: xs) := by
  intro xs
  induction xs with
  | nil => intro k x b h; simp at h
  | cons y t ih =>
    intro k x b h
    cases k with
    | zero =>
      have hb : y = b := by simpa using h
      rw [← hb]
      exact List.Perm.swap x y t
    | succ k =>
      have h' : t[k]? = some b := by simpa using h
      have ihp := ih k x b h'
      show List.Perm (b :: y :: t.set k x) (x :: y :: t)
      have s1 : List.Perm (b :: y :: t.set k x) (y :: b :: t.set k x) :=
        List.Perm.swap y b _
      have s2 : List.Perm (y :: b :: t.set k x) (y :: x :: t) := ihp.cons y
      have s3 : List.Perm (y :: x :: t) (x :: y :: t) := List.Perm.swap x y t
      exact (s1.trans s2).trans s3

theorem set_set_swap_perm : ∀ (l : List α) (i j : Nat) (a b : α),
    l[i]? = some a → l[j]? = some b →
    List.Perm ((l.set i b).set j a) l := by
  intro l
  induction l with
  | nil => intro i j a b hi; simp at hi
  | cons x t ih =>
    intro i j a b hi hj
    cases i with
    | zero =>
      have ha : x = a := by simpa using hi
      cases j with
      | zero =>
        have hb : x = b := by simpa using hj
        show List.Perm ((b :: t).set 0 a) (x :: t)
        rw [← ha, ← hb]
        exact List.Perm.refl _
      | succ k =>
        have hb : t[k]? = some b := by simpa using hj
        show List.Perm (b :: t.set k a) (x :: t)
        rw [ha]
        exact cons_set_perm t k a b hb
    | succ m =>
      have ha : t[m]? = some a := by simpa using hi
      cases j with
      | zero =>
        have hb : x = b := by simpa using hj
        show List.Perm (a :: t.set m b) (x :: t)
        rw [hb]
        exact cons_set_perm t m b a ha
      | succ k =>
        have hb : t[k]? = some b := by simpa using hj
        show List.Perm (x :: (t.set m b).set k a) (x :: t)
        exact (ih m k a b ha hb).cons x

theorem swapList_perm (l : List α) (i j : Nat) : List.Perm (swapList l i j) l := by
  unfold swapList
  rcases hi : l[i]? with _ | a <;> rcases hj : l[j]? with _ | b
  · exact List.Perm.refl l
  · exact List.Perm.refl l
  · exact List.Perm.refl l
  · exact set_set_swap_perm l i j a b hi hj

theorem shuffleGo_perm : ∀ (i : Nat) (s : Nat) (l : List α),
    List.Perm (shuffleGo i s l) l := by
  intro i
  induction i with
  | zero => intro s l; exact List.Perm.refl l
  | succ i ih =>
    intro s l
    exact (ih (lcg s) (swapList l (i + 1) (lcg s % (i + 2)))).trans
      (swapList_perm l (i + 1) (lcg s % (i + 2)))

theorem pyShuffle_perm (seed : Nat) (l : List α) :
    List.Perm (pyShuffle seed l) l :=
  shuffleGo_perm (l.length - 1) (lcg seed) l

theorem rat_floor_eq (q : ℚ) : Rat.floor q = ⌊q⌋ := by
  rw [Rat.floor_def', Rat.floor_def]

theorem isclose_self (a : ℚ) : isclose a a = true := by
  simp only [isclose, decide_eq_true_eq, sub_self, abs_zero]
  exact le_max_of_le_right (by norm_num)

theorem csi_three (total : Nat) (r1 r2 r3 : ℚ) :
    compute_split_indices total [r1, r2, r3] =
      [Rat.floor ((total : ℚ) * r1),
       Rat.floor ((total : ℚ) * r1) + Rat.floor ((total : ℚ) * r2),
       (total : Int)] := by
  simp [compute_split_indices, computeSplitGo, List.dropLast]

theorem pySlice_three (l : List α) (a b : Int) (h0 : 0 ≤ a) (hab : a ≤ b)
    (hbn : b ≤ (l.length : Int)) :
    pySlice l 0 a ++ pySlice l a b ++ pySlice l b (l.length : Int) = l ∧
    (pySlice l 0 a).length = a.toNat ∧
    (pySlice l a b).length = b.toNat - a.toNat ∧
    (pySlice l b (l.length : Int)).length = l.length - b.toNat := by
  have hA : pyIdx l.length a = a.toNat := by
    unfold pyIdx
    rw [if_neg (by omega)]
    omega
  have hB : pyIdx l.length b = b.toNat := by
    unfold pyIdx
    rw [if_neg (by omega)]
    omega
  have h0' : pyIdx l.length 0 = 0 := by
    unfold pyIdx
    rw [if_neg (by omega)]
    omega
  have hN : pyIdx l.length (l.length : Int) = l.length := by
    unfold pyIdx
    rw [if_neg (by omega)]
    omega
  have hs1 : pySlice l 0 a = l.take a.toNat := by
    unfold pySlice
    rw [hA, h0']
    simp
  have hs2 : pySlice l a b = (l.drop a.toNat).take (b.toNat - a.toNat) := by
    unfold pySlice
    rw [hA, hB]
  have hs3 : pySlice l b (l.length : Int) = l.drop b.toNat := by
    unfold pySlice
    rw [hB, hN]
    apply List.take_of_length_le
    simp
  refine ⟨?_, ?_, ?_, ?_⟩
  · rw [hs1, hs2, hs3]
    have hd : l.drop b.toNat = (l.drop a.toNat).drop (b.toNat - a.toNat) := by
      rw [List.drop_drop]
      congr 1
      omega
    rw [List.append_assoc, hd, List.take_append_drop, List.take_append_drop]
  · rw [hs1]
    simp
    omega
  · rw [hs2]
    simp
    omega
  · rw [hs3]
    simp

end SplitYolo

/-- C1 (amended to nonnegative ratios): for every non-empty pair list,
seed, and nonnegative ratio triple summing to 1, `split_dataset`
succeeds, the three splits concatenate to a permutation of the input,
the train and validation sizes are the floors of the configured
fractions, the test split holds the remainder, and the assignment is
identical across runs with the same seed and input. -/
theorem c1_split_dataset_correct (α : Type) (pairs : List α) (r1 r2 r3 : ℚ)
    (seed : Nat) (_hne : pairs ≠ []) (h1 : 0 ≤ r1) (h2 : 0 ≤ r2) (h3 : 0 ≤ r3)
    (hsum : r1 + r2 + r3 = 1) : C1Concl α pairs r1 r2 r3 seed := by
  have hsum' : ([r1, r2, r3] : List ℚ).sum = 1 := by
    simp only [List.sum_cons, List.sum_nil, add_zero]
    linarith
  have hclose : SplitYolo.isclose ([r1, r2, r3] : List ℚ).sum 1 = true := by
    rw [hsum']
    exact SplitYolo.isclose_self 1
  set sh := SplitYolo.pyShuffle seed pairs with hsh
  have hperm : List.Perm sh pairs := SplitYolo.pyShuffle_perm seed pairs
  have hlen : sh.length = pairs.length := hperm.length_eq
  set n := pairs.length with hn
  set c1v : Int := Rat.floor ((n : ℚ) * r1) with hc1
  set c2v : Int := Rat.floor ((n : ℚ) * r2) with hc2
  have hnn : (0 : ℚ) ≤ (n : ℚ) := by positivity
  have hc1nn : 0 ≤ c1v := by
    rw [hc1, SplitYolo.rat_floor_eq]
    exact Int.floor_nonneg.mpr (mul_nonneg hnn h1)
  have hc2nn : 0 ≤ c2v := by
    rw [hc2, SplitYolo.rat_floor_eq]
    exact Int.floor_nonneg.mpr (mul_nonneg hnn h2)
  have hc1le : (c1v : ℚ) ≤ (n : ℚ) * r1 := by
    rw [hc1, SplitYolo.rat_floor_eq]
    exact_mod_cast Int.floor_le _
  have hc2le : (c2v : ℚ) ≤ (n : ℚ) * r2 := by
    rw [hc2, SplitYolo.rat_floor_eq]
    exact_mod_cast Int.floor_le _
  have hsumle : c1v + c2v ≤ (n : Int) := by
    have hq : ((c1v + c2v : Int) : ℚ) ≤ (n : ℚ) := by
      push_cast
      have hr12 : r1 + r2 ≤ 1 := by linarith
      calc (c1v : ℚ) + (c2v : ℚ) ≤ (n : ℚ) * r1 + (n : ℚ) * r2 := by linarith
        _ = (n : ℚ) * (r1 + r2) := by ring
        _ ≤ (n : ℚ) * 1 := by
            exact mul_le_mul_of_nonneg_left hr12 hnn
        _ = (n : ℚ) := by ring
    exact_mod_cast hq
  have heq : SplitYolo.split_dataset pairs [r1, r2, r3] seed =
      .ok ⟨SplitYolo.pySlice sh 0 c1v, SplitYolo.pySlice sh c1v (c1v + c2v),
        SplitYolo.pySlice sh (c1v + c2v) (n : Int)⟩ := by
    unfold SplitYolo.split_dataset
    rw [if_neg (by simp), if_neg (by rw [hclose]; simp)]
    rw [← hsh, hlen, SplitYolo.csi_three, ← hc1, ← hc2]
  have hslice := SplitYolo.pySlice_three sh c1v (c1v + c2v) hc1nn
    (by omega) (by rw [hlen]; exact hsumle)
  rw [hlen] at hslice
  refine ⟨_, heq, ?_, ?_, ?_, ?_, ?_⟩
  · dsimp only
    rw [hslice.1]
    exact hperm
  · dsimp only
    rw [hslice.2.1, ← hn, ← hc1]
    omega
  · dsimp only
    rw [hslice.2.2.1, ← hn, ← hc2]
    omega
  · dsimp only
    rw [hslice.2.2.2, hslice.2.1, hslice.2.2.1, ← hn]
    omega
  · intro pairs2 hp
    rw [hp]
    exact heq

/-- Witness for C1 on a concrete dataset with the default 70/20/10 ratios. -/
theorem c1_split_dataset_correct_witness : C1Concl Nat [10, 20, 30] (7/10) (1/5) (1/10) 42 :=
  c1_split_dataset_correct Nat [10, 20, 30] (7/10) (1/5) (1/10) 42
    (by decide) (by norm_num) (by norm_num) (by norm_num) (by norm_num)

/-- Counterexample to C1 as stated: with ratios summing to 1 but one of
them negative, the produced splits duplicate elements (their
concatenation is not a permutation of the input) and the validation size
does not match the floor formula. -/
theorem c1_counterexample :
    ((1 : ℚ)/2 + (-1)/5 + 7/10 = 1) ∧
    ([0, 1, 2, 3, 4] : List Nat) ≠ [] ∧
    SplitYolo.split_dataset ([0, 1, 2, 3, 4] : List Nat) [1/2, (-1)/5, 7/10] 42 =
      .ok ⟨[4, 2], [], [2, 1, 3, 0]⟩ ∧
    ¬ List.Perm ([4, 2] ++ ([] : List Nat) ++ [2, 1, 3, 0]) [0, 1, 2, 3, 4] ∧
    (([] : List Nat).length : Int) ≠ Rat.floor ((5 : ℚ) * ((-1)/5)) := by
  refine ⟨by norm_num, by decide, ?_, by decide, ?_⟩
  · have hsum : ([1/2, (-1)/5, 7/10] : List ℚ).sum = 1 := by
      norm_num [List.sum_cons, List.sum_nil]
    have hclose : SplitYolo.isclose ([1/2, (-1)/5, 7/10] : List ℚ).sum 1 = true := by
      rw [hsum]; exact SplitYolo.isclose_self 1
    have hshuf : SplitYolo.pyShuffle 42 ([0, 1, 2, 3, 4] : List Nat) = [4, 2, 1, 3, 0] := by
      decide
    have hcsi : SplitYolo.compute_split_indices 5 [1/2, (-1)/5, 7/10] = [2, 1, 5] := by
      rw [SplitYolo.csi_three]
      norm_num [SplitYolo.rat_floor_eq, Int.floor_eq_iff]
    unfold SplitYolo.split_dataset
    rw [if_neg (by simp), if_neg (by rw [hclose]; simp), hshuf]
    have h5 : ([4, 2, 1, 3, 0] : List Nat).length = 5 := by decide
    rw [h5, hcsi]
    rfl
  · rw [show ((5 : ℚ) * ((-1)/5)) = -1 by norm_num]
    rw [SplitYolo.rat_floor_eq]
    norm_num

namespace LabelIdx

theorem splitWs_stripWs_ne_nil {l : List Char} (h : stripWs l ≠ []) :
    splitWs (stripWs l) ≠ [] := by
  intro hsp
  have hall := all_space_of_splitWs_eq_nil hsp
  cases hd : stripWs l with
  | nil => exact h hd
  | cons c cs =>
    have hc := stripWs_head_nonspace (l := l) c (by rw [hd]; rfl)
    have hc' := hall c (by rw [hd]; simp)
    rw [hc'] at hc
    exact Bool.true_eq_false.mp hc

theorem joinTokens_no_newline : ∀ ts : List (List Char),
    (∀ t ∈ ts, wfToken t) → ∀ c ∈ joinTokens ts, c ≠ '\n' := by
  intro ts
  induction ts with
  | nil => intro _ c hc; simp [joinTokens, List.intercalate] at hc
  | cons t rest ih =>
    intro h c hc
    have hnospace : ∀ x ∈ t, isSpace x = false := (h t (by simp)).2
    cases rest with
    | nil =>
      have hj : joinTokens [t] = t := by simp [joinTokens, List.intercalate]
      rw [hj] at hc
      intro hceq
      have := hnospace c hc
      rw [hceq] at this
      simp [isSpace] at this
    | cons u us =>
      have hj : joinTokens (t :: u :: us) = t ++ ' ' :: joinTokens (u :: us) := by
        simp [joinTokens, List.intercalate]
      rw [hj] at hc
      rcases List.mem_append.mp hc with hc | hc
      · intro hceq
        have := hnospace c hc
        rw [hceq] at this
        simp [isSpace] at this
      · rcases List.mem_cons.mp hc with rfl | hc
        · decide
        · exact ih (fun x hx => h x (List.mem_cons_of_mem _ hx)) c hc

theorem forceTokens_facts (parts : List (List Char)) (hne : parts ≠ [])
    (hwf : ∀ t ∈ parts, wfToken t) :
    (forceTokens parts).getD 0 [] = strC "0" ∧
    (forceTokens parts).length = parts.length ∧
    (forceTokens parts) ≠ [] ∧
    (∀ t ∈ forceTokens parts, wfToken t) ∧
    (forceTokens parts).tail = parts.tail := by
  unfold forceTokens
  by_cases h0 : parts.getD 0 [] ≠ strC "0"
  · rw [if_pos h0]
    cases parts with
    | nil => exact absurd rfl hne
    | cons p pr =>
      refine ⟨rfl, by simp, by simp, ?_, rfl⟩
      intro t ht
      rcases List.mem_or_eq_of_mem_set ht with ht | ht
      · exact hwf t ht
      · rw [ht]; decide
  · rw [if_neg h0]
    push_neg at h0
    exact ⟨h0, rfl, hne, hwf, rfl⟩

theorem truncTokens_facts (parts : List (List Char)) (hne : parts ≠ [])
    (hwf : ∀ t ∈ parts, wfToken t) :
    (truncTokens parts).getD 0 [] = parts.getD 0 [] ∧
    (truncTokens parts).length ≤ 5 ∧
    (truncTokens parts) ≠ [] ∧
    (∀ t ∈ truncTokens parts, wfToken t) := by
  unfold truncTokens
  by_cases h5 : 5 < parts.length
  · rw [if_pos h5]
    cases parts with
    | nil => exact absurd rfl hne
    | cons p pr =>
      refine ⟨by simp, by simp, by simp, ?_⟩
      intro t ht
      exact hwf t (List.mem_of_mem_take ht)
  · rw [if_neg h5]
    exact ⟨rfl, by omega, hne, hwf⟩

/-- The emitted line of a non-blank input, with the facts needed about
its token list. -/
theorem rewriteLine_processed (line : List Char) (hs : stripWs line ≠ []) :
    ∃ parts2 : List (List Char),
      (rewriteLine line).1 = joinTokens parts2 ∧
      (∀ t ∈ parts2, wfToken t) ∧ parts2 ≠ [] ∧
      parts2.getD 0 [] = strC "0" ∧ parts2.length ≤ 5 := by
  have hne := splitWs_stripWs_ne_nil hs
  have hwf := splitWs_sound (stripWs line)
  obtain ⟨hf0, hflen, hfne, hfwf, _⟩ := forceTokens_facts _ hne hwf
  obtain ⟨ht0, htlen, htne, htwf⟩ := truncTokens_facts _ hfne hfwf
  refine ⟨truncTokens (forceTokens (splitWs (stripWs line))), ?_, htwf, htne, ?_, htlen⟩
  · rw [rewriteLine, if_neg hs]
  · rw [ht0, hf0]

theorem rewriteLine_idem (line : List Char) :
    rewriteLine ((rewriteLine line).1) = ((rewriteLine line).1, false) := by
  by_cases hs : stripWs line = []
  · have h1 : rewriteLine line = (line, false) := by rw [rewriteLine, if_pos hs]
    rw [h1]
    exact h1
  · obtain ⟨parts2, hout, hwf, hne, hhead, hlen⟩ := rewriteLine_processed line hs
    rw [hout]
    have hstrip : stripWs (joinTokens parts2) = joinTokens parts2 :=
      stripWs_joinTokens _ hwf
    have hjne : joinTokens parts2 ≠ [] := joinTokens_ne_nil hne hwf
    have hsplit : splitWs (joinTokens parts2) = parts2 := splitWs_joinTokens _ hwf
    rw [rewriteLine, if_neg (by rw [hstrip]; exact hjne), hstrip, hsplit]
    have hforce : forceTokens parts2 = parts2 := by
      unfold forceTokens
      rw [if_neg (by rw [hhead]; exact fun h => h rfl)]
    have htrunc : truncTokens parts2 = parts2 := by
      unfold truncTokens
      rw [if_neg (by omega)]
    rw [hforce, htrunc]
    simp only [Prod.mk.injEq]
    constructor
    · trivial
    · rw [hhead]
      have h5 : ¬ (5 < parts2.length) := by omega
      simp [h5]

theorem rewriteLine_no_newline (line : List Char) (hline : ∀ c ∈ line, c ≠ '\n') :
    ∀ c ∈ (rewriteLine line).1, c ≠ '\n' := by
  by_cases hs : stripWs line = []
  · rw [rewriteLine, if_pos hs]
    exact hline
  · obtain ⟨parts2, hout, hwf, _, _, _⟩ := rewriteLine_processed line hs
    rw [hout]
    exact joinTokens_no_newline parts2 hwf

theorem rewriteLine_ne_nil (line : List Char) (hne : line ≠ []) :
    (rewriteLine line).1 ≠ [] := by
  by_cases hs : stripWs line = []
  · rw [rewriteLine, if_pos hs]
    exact hne
  · obtain ⟨parts2, hout, hwf, hne2, _, _⟩ := rewriteLine_processed line hs
    rw [hout]
    exact joinTokens_ne_nil hne2 hwf

/-- Splitting the would-be written text recovers exactly the processed
lines. -/
theorem rewrite_file_splitNl (text : List Char) :
    splitNl ((rewrite_file text).2) =
      (splitNl text).map (fun l => (rewriteLine l).1) := by
  by_cases hnil : splitNl text = []
  · have htext : text = [] := by
      by_contra h
      exact splitNl_ne_nil h hnil
    subst htext
    rfl
  · have hupne : ((splitNl text).map (fun l => (rewriteLine l).1)) ≠ [] := by
      simpa using hnil
    have hnonl : ∀ t ∈ (splitNl text).map (fun l => (rewriteLine l).1),
        ∀ c ∈ t, c ≠ '\n' := by
      intro t ht c hc
      rcases List.mem_map.mp ht with ⟨l, hlmem, rfl⟩
      exact rewriteLine_no_newline l (splitNl_no_newline text l hlmem) c hc
    show splitNl (joinNl ((splitNl text).map fun l => (rewriteLine l).1) ++
      (if endsNl text = true then ['\n'] else [])) = _
    cases hend : endsNl text with
    | true =>
      rw [if_pos rfl]
      exact splitNl_joinNl_endNl _ hupne hnonl
    | false =>
      rw [if_neg (by simp), List.append_nil]
      apply splitNl_joinNl _ hupne hnonl
      intro t ht
      rw [List.getLast?_map] at ht
      have hne' : text.getLast? ≠ some '\n' := by
        have := hend
        unfold endsNl at this
        simpa using this
      rcases hgl : (splitNl text).getLast? with _ | l'
      · rw [hgl] at ht; simp at ht
      · rw [hgl] at ht
        simp at ht
        have hl'ne : l' ≠ [] := splitNl_last_ne_nil hne' l' hgl
        rw [← ht]
        exact rewriteLine_ne_nil l' hl'ne

/-- C3: the class/angle normalizer is idempotent — after one (non
dry-run) pass, a second pass reports no change and leaves the bytes
identical. -/
theorem c3_normalizer_idempotent (text : List Char) :
    (rewrite_file (rewriteResult text)).1 = false ∧
    rewriteResult (rewriteResult text) = rewriteResult text := by
  have hflag : (rewrite_file (rewriteResult text)).1 = false := by
    by_cases hch : (rewrite_file text).1 = true
    · have ht' : rewriteResult text = (rewrite_file text).2 := by
        rw [rewriteResult, if_pos hch]
      rw [ht']
      show (((splitNl ((rewrite_file text).2)).map rewriteLine).any Prod.snd) = false
      rw [rewrite_file_splitNl]
      rw [List.any_eq_false]
      intro x hx
      rcases List.mem_map.mp hx with ⟨y, hy, rfl⟩
      rcases List.mem_map.mp hy with ⟨l, hlmem, rfl⟩
      rw [rewriteLine_idem]
      simp
    · have ht' : rewriteResult text = text := by
        rw [rewriteResult, if_neg hch]
      rw [ht']
      exact Bool.not_eq_true _ |>.mp hch
  refine ⟨hflag, ?_⟩
  rw [rewriteResult, if_neg (by rw [hflag]; simp)]

/-- The emitted tokens of a non-blank line with at least five fields. -/
theorem c5_line (l : List Char) (hs : stripWs l ≠ [])
    (h5 : 5 ≤ (splitWs (stripWs l)).length) :
    splitWs ((rewriteLine l).1) = strC "0" :: (splitWs (stripWs l)).tail.take 4 ∧
    (splitWs ((rewriteLine l).1)).length = 5 := by
  have hwf := splitWs_sound (stripWs l)
  have hne : splitWs (stripWs l) ≠ [] := splitWs_stripWs_ne_nil hs
  rcases hps : splitWs (stripWs l) with _ | ⟨p, pr⟩
  · exact absurd hps hne
  rw [hps] at h5 hwf
  have hpr4 : 4 ≤ pr.length := by
    simp only [List.length_cons] at h5
    omega
  have hforce : forceTokens (p :: pr) = strC "0" :: pr := by
    unfold forceTokens
    by_cases h0 : (p :: pr).getD 0 [] ≠ strC "0"
    · rw [if_pos h0]
      rfl
    · rw [if_neg h0]
      have hp0 : p = strC "0" := by simpa using h0
      rw [hp0]
  have htrunc : truncTokens (strC "0" :: pr) = strC "0" :: pr.take 4 := by
    unfold truncTokens
    by_cases hlt : 5 < (strC "0" :: pr).length
    · rw [if_pos hlt]
      rfl
    · rw [if_neg hlt]
      simp only [List.length_cons] at hlt
      rw [List.take_of_length_le (by omega)]
  have hwfout : ∀ t ∈ strC "0" :: pr.take 4, wfToken t := by
    intro t ht
    rcases List.mem_cons.mp ht with rfl | ht
    · decide
    · exact hwf t (List.mem_cons_of_mem _ (List.mem_of_mem_take ht))
  have hout : (rewriteLine l).1 = joinTokens (strC "0" :: pr.take 4) := by
    rw [rewriteLine, if_neg hs]
    show joinTokens (truncTokens (forceTokens (splitWs (stripWs l)))) = _
    rw [hps, hforce, htrunc]
  rw [hout, splitWs_joinTokens _ hwfout]
  refine ⟨rfl, ?_⟩
  simp only [List.length_cons, List.length_take]
  omega

end LabelIdx

/-- C5 (amended): the normalizer's output lines for files whose
non-blank lines all carry at least the five canonical fields. -/
theorem c5_rewrite_file_fields (text : List Char)
    (_hch : (LabelIdx.rewrite_file text).1 = true)
    (hfields : ∀ l ∈ splitNl text, stripWs l ≠ [] →
      5 ≤ (splitWs (stripWs l)).length) :
    C5Concl text :=
  ⟨LabelIdx.rewrite_file_splitNl text,
   fun l hl hs => LabelIdx.c5_line l hs (hfields l hl hs)⟩

/-- Witness for C5 on a six-field line with a foreign class index. -/
theorem c5_rewrite_file_fields_witness : C5Concl (strC "3 .1 .2 .3 .4 .5\n") :=
  c5_rewrite_file_fields (strC "3 .1 .2 .3 .4 .5\n") (by decide) (by decide)

/-- Counterexample to C5 as stated: a rewritten file whose only
non-blank line has two fields keeps two fields — the class is forced to
`"0"` but the line is not brought to the five canonical fields. -/
theorem c5_counterexample :
    (LabelIdx.rewrite_file (strC "3 0.5\n")).1 = true ∧
    LabelIdx.rewriteResult (strC "3 0.5\n") = strC "0 0.5\n" ∧
    splitNl (strC "0 0.5\n") = [strC "0 0.5"] ∧
    stripWs (strC "0 0.5") ≠ [] ∧
    (splitWs (stripWs (strC "0 0.5"))).length = 2 := by
  decide

namespace SyncYolo

theorem normalizeTokens_wf (parts : List (List Char)) (angle : List Char)
    (hwf : ∀ t ∈ parts, wfToken t) (hang : wfToken angle) :
    ∀ t ∈ normalizeTokens parts angle, wfToken t := by
  intro t ht
  unfold normalizeTokens at ht
  have hwfp : ∀ x ∈ (if parts ≠ [] then parts.set 0 (strC "0") else parts), wfToken x := by
    intro x hx
    by_cases hp : parts ≠ []
    · rw [if_pos hp] at hx
      rcases List.mem_or_eq_of_mem_set hx with hx | hx
      · exact hwf x hx
      · rw [hx]; decide
    · rw [if_neg hp] at hx
      exact hwf x hx
  set p := if parts ≠ [] then parts.set 0 (strC "0") else parts with hp
  by_cases h5 : p.length = 5
  · rw [if_pos h5] at ht
    rcases List.mem_append.mp ht with ht | ht
    · exact hwfp t ht
    · rcases List.mem_singleton.mp ht with rfl
      exact hang
  · rw [if_neg h5] at ht
    by_cases h6 : 6 ≤ p.length
    · rw [if_pos h6] at ht
      rcases List.mem_or_eq_of_mem_set ht with ht | ht
      · exact hwfp t ht
      · rw [ht]; exact hang
    · rw [if_neg h6] at ht
      exact hwfp t ht

theorem normalizeTokens_ne_nil (parts : List (List Char)) (angle : List Char)
    (hne : parts ≠ []) : normalizeTokens parts angle ≠ [] := by
  unfold normalizeTokens
  rw [if_pos hne]
  have hlen : (parts.set 0 (strC "0")).length = parts.length := by simp
  by_cases h5 : (parts.set 0 (strC "0")).length = 5
  · rw [if_pos h5]; simp
  · rw [if_neg h5]
    by_cases h6 : 6 ≤ (parts.set 0 (strC "0")).length
    · rw [if_pos h6]
      intro h
      have hlen0 := congrArg List.length h
      simp at hlen0
      exact hne hlen0
    · rw [if_neg h6]
      intro h
      have hlen0 := congrArg List.length h
      simp at hlen0
      exact hne hlen0

theorem normalizeTokens_head (parts : List (List Char)) (angle : List Char)
    (hne : parts ≠ []) :
    (normalizeTokens parts angle).head? = some (strC "0") := by
  unfold normalizeTokens
  rw [if_pos hne]
  rcases parts with _ | ⟨q, qr⟩
  · exact absurd rfl hne
  rw [show ((q :: qr).set 0 (strC "0")) = strC "0" :: qr from rfl]
  by_cases h5 : ((strC "0" :: qr) : List (List Char)).length = 5
  · rw [if_pos h5]
    rfl
  · rw [if_neg h5]
    by_cases h6 : 6 ≤ ((strC "0" :: qr) : List (List Char)).length
    · rw [if_pos h6]
      rfl
    · rw [if_neg h6]
      rfl

theorem normalizeTokens_long (parts : List (List Char)) (angle : List Char)
    (h6 : 6 ≤ parts.length) :
    normalizeTokens parts angle = (parts.set 0 (strC "0")).set 5 angle ∧
    (normalizeTokens parts angle)[5]? = some angle ∧
    (normalizeTokens parts angle).length = parts.length ∧
    ∀ i, i ≠ 0 → i ≠ 5 →
      (normalizeTokens parts angle)[i]? = parts[i]? := by
  have hne : parts ≠ [] := by
    intro h; rw [h] at h6; simp at h6
  have heq : normalizeTokens parts angle = (parts.set 0 (strC "0")).set 5 angle := by
    unfold normalizeTokens
    rw [if_pos hne]
    rw [if_neg (by simp; omega), if_pos (by simp; omega)]
  refine ⟨heq, ?_, ?_, ?_⟩
  · rw [heq]
    rw [List.getElem?_set_self (by simp; omega)]
  · rw [heq]; simp
  · intro i hi0 hi5
    rw [heq]
    rw [List.getElem?_set_ne (fun h => hi5 h.symm)]
    rw [List.getElem?_set_ne (fun h => hi0 h.symm)]

theorem normalizeTokens_five (parts : List (List Char)) (angle : List Char)
    (h5 : parts.length = 5) :
    normalizeTokens parts angle = (parts.set 0 (strC "0")) ++ [angle] := by
  have hne : parts ≠ [] := by
    intro h; rw [h] at h5; simp at h5
  unfold normalizeTokens
  rw [if_pos hne, if_pos (by simp [h5])]

end SyncYolo

/-- C10: `normalize_label` overwrites rather than preserves existing
angle data, for every input text and every single-token angle value. -/
theorem c10_normalize_label_overwrites (text angle : List Char)
    (hang : wfToken angle) : C10Concl text angle := by
  constructor
  · by_cases hkept : SyncYolo.keptLines text = []
    · rw [SyncYolo.normalize_label, hkept]
      rw [if_neg (by intro h; exact h.2 rfl)]
      simp [joinNl, List.intercalate]
    · have hwfline : ∀ l ∈ SyncYolo.keptLines text,
          ∀ t ∈ SyncYolo.normalizeTokens (splitWs l) angle, wfToken t := by
        intro l hl
        exact SyncYolo.normalizeTokens_wf _ _ (splitWs_sound l) hang
      have hmapne : ((SyncYolo.keptLines text).map
          (fun l => joinTokens (SyncYolo.normalizeTokens (splitWs l) angle))) ≠ [] := by
        simpa using hkept
      have hnonl : ∀ t ∈ (SyncYolo.keptLines text).map
          (fun l => joinTokens (SyncYolo.normalizeTokens (splitWs l) angle)),
          ∀ c ∈ t, c ≠ '\n' := by
        intro t ht c hc
        rcases List.mem_map.mp ht with ⟨l, hl, rfl⟩
        exact LabelIdx.joinTokens_no_newline _ (hwfline l hl) c hc
      rw [SyncYolo.normalize_label]
      cases hend : endsNl text with
      | true =>
        rw [if_pos ⟨rfl, hkept⟩]
        exact splitNl_joinNl_endNl _ hmapne hnonl
      | false =>
        rw [if_neg (by intro h; exact absurd h.1 (by simp)), List.append_nil]
        apply splitNl_joinNl _ hmapne hnonl
        intro t ht
        have hmem := List.mem_of_getLast?_eq_some ht
        rcases List.mem_map.mp hmem with ⟨l, hl, rfl⟩
        have hsne : stripWs l ≠ [] := by
          have := List.mem_filter.mp hl
          simpa using this.2
        apply joinTokens_ne_nil
        · exact SyncYolo.normalizeTokens_ne_nil _ _
            (splitWs_ne_nil_of_strip_ne_nil hsne)
        · exact hwfline l hl
  · intro l _ hs
    have hne := splitWs_ne_nil_of_strip_ne_nil hs
    have hwf := splitWs_sound l
    refine ⟨splitWs_joinTokens _ (SyncYolo.normalizeTokens_wf _ _ hwf hang),
      SyncYolo.normalizeTokens_head _ _ hne, ?_, ?_⟩
    · intro h6
      exact SyncYolo.normalizeTokens_long _ _ h6
    · intro h5
      exact SyncYolo.normalizeTokens_five _ _ h5

/-- Witness for C10: a polygon-style 9-field line, a 6-field OBB line
and a plain 5-field line, with angle value `0.0`. -/
theorem c10_normalize_label_overwrites_witness :
    C10Concl (strC "3 .1 .2 .3 .4 .5 .6 .7 .8\n1 .1 .2 .3 .4 .9\n2 .1 .2 .3 .4\n")
      (strC "0.0") :=
  c10_normalize_label_overwrites _ _ (by decide)

namespace SyncYolo

theorem lookupStem_cons_ne_none {m : List (String × SplitName)} {s : String}
    (h : lookupStem m s ≠ none) (k : String) (v : SplitName) :
    lookupStem ((k, v) :: m) s ≠ none := by
  unfold lookupStem
  by_cases hk : k = s
  · rw [if_pos hk]; simp
  · rw [if_neg hk]; exact h

theorem copyStep_mono (st0 : TargetState) (si sl : List String) (d : SplitName)
    (acc : TargetState × Nat × Nat) (stem s : String) :
    (lookupStem acc.1.imgSplit s ≠ none →
      lookupStem (copyStep st0 si sl d acc stem).1.imgSplit s ≠ none) ∧
    (lookupStem acc.1.lblSplit s ≠ none →
      lookupStem (copyStep st0 si sl d acc stem).1.lblSplit s ≠ none) := by
  unfold copyStep
  by_cases h1 : lookupStem st0.imgSplit stem = none ∧ stem ∈ si <;>
    by_cases h2 : lookupStem st0.lblSplit stem = none ∧ stem ∈ sl <;>
      simp only [h1, h2, if_pos, if_neg, if_true, if_false] <;>
        constructor <;> intro h <;>
          first
            | exact h
            | exact lookupStem_cons_ne_none h _ _

theorem foldl_mono (st0 : TargetState) (si sl : List String) (d : SplitName) :
    ∀ (stems : List String) (acc : TargetState × Nat × Nat) (s : String),
    (lookupStem acc.1.imgSplit s ≠ none →
      lookupStem (stems.foldl (copyStep st0 si sl d) acc).1.imgSplit s ≠ none) ∧
    (lookupStem acc.1.lblSplit s ≠ none →
      lookupStem (stems.foldl (copyStep st0 si sl d) acc).1.lblSplit s ≠ none) := by
  intro stems
  induction stems with
  | nil => intro acc s; exact ⟨id, id⟩
  | cons stem rest ih =>
    intro acc s
    have hstep := copyStep_mono st0 si sl d acc stem s
    have hrest := ih (copyStep st0 si sl d acc stem) s
    exact ⟨fun h => hrest.1 (hstep.1 h), fun h => hrest.2 (hstep.2 h)⟩

theorem lookupStem_cons_self (m : List (String × SplitName)) (s : String)
    (v : SplitName) : lookupStem ((s, v) :: m) s = some v := by
  unfold lookupStem
  rw [if_pos rfl]

/-- How one step transforms the image map. -/
theorem copyStep_imgSplit (st0 : TargetState) (si sl : List String)
    (d : SplitName) (acc : TargetState × Nat × Nat) (stem : String) :
    (copyStep st0 si sl d acc stem).1.imgSplit =
      if lookupStem st0.imgSplit stem = none ∧ stem ∈ si then
        (stem, ((lookupStem st0.imgSplit stem).orElse
          (fun _ => lookupStem st0.lblSplit stem)).getD d) :: acc.1.imgSplit
      else acc.1.imgSplit := by
  by_cases h1 : lookupStem st0.imgSplit stem = none ∧ stem ∈ si <;>
    by_cases h2 : lookupStem st0.lblSplit stem = none ∧ stem ∈ sl
  · unfold copyStep; simp only [if_pos h1, if_pos h2]
  · unfold copyStep; simp only [if_pos h1, if_neg h2]
  · unfold copyStep; simp only [if_neg h1, if_pos h2]
  · unfold copyStep; simp only [if_neg h1, if_neg h2]

/-- How one step transforms the label map. -/
theorem copyStep_lblSplit (st0 : TargetState) (si sl : List String)
    (d : SplitName) (acc : TargetState × Nat × Nat) (stem : String) :
    (copyStep st0 si sl d acc stem).1.lblSplit =
      if lookupStem st0.lblSplit stem = none ∧ stem ∈ sl then
        (stem, ((lookupStem st0.imgSplit stem).orElse
          (fun _ => lookupStem st0.lblSplit stem)).getD d) :: acc.1.lblSplit
      else acc.1.lblSplit := by
  by_cases h1 : lookupStem st0.imgSplit stem = none ∧ stem ∈ si <;>
    by_cases h2 : lookupStem st0.lblSplit stem = none ∧ stem ∈ sl
  · unfold copyStep; simp only [if_pos h1, if_pos h2]
  · unfold copyStep; simp only [if_pos h1, if_neg h2]
  · unfold copyStep; simp only [if_neg h1, if_pos h2]
  · unfold copyStep; simp only [if_neg h1, if_neg h2]

theorem copyStep_establishes (st0 : TargetState) (si sl : List String)
    (d : SplitName) (acc : TargetState × Nat × Nat) (stem : String)
    (hinvI : lookupStem st0.imgSplit stem ≠ none →
      lookupStem acc.1.imgSplit stem ≠ none)
    (hinvL : lookupStem st0.lblSplit stem ≠ none →
      lookupStem acc.1.lblSplit stem ≠ none) :
    (stem ∈ si → lookupStem (copyStep st0 si sl d acc stem).1.imgSplit stem ≠ none) ∧
    (stem ∈ sl → lookupStem (copyStep st0 si sl d acc stem).1.lblSplit stem ≠ none) := by
  constructor
  · intro hmem
    rw [copyStep_imgSplit]
    by_cases h0 : lookupStem st0.imgSplit stem = none
    · rw [if_pos ⟨h0, hmem⟩, lookupStem_cons_self]
      simp
    · rw [if_neg (by intro h; exact h0 h.1)]
      exact hinvI h0
  · intro hmem
    rw [copyStep_lblSplit]
    by_cases h0 : lookupStem st0.lblSplit stem = none
    · rw [if_pos ⟨h0, hmem⟩, lookupStem_cons_self]
      simp
    · rw [if_neg (by intro h; exact h0 h.1)]
      exact hinvL h0

theorem copyStep_inv (st0 : TargetState) (si sl : List String) (d : SplitName)
    (acc : TargetState × Nat × Nat) (stem s : String)
    (hI : lookupStem st0.imgSplit s ≠ none → lookupStem acc.1.imgSplit s ≠ none)
    (hL : lookupStem st0.lblSplit s ≠ none → lookupStem acc.1.lblSplit s ≠ none) :
    (lookupStem st0.imgSplit s ≠ none →
      lookupStem (copyStep st0 si sl d acc stem).1.imgSplit s ≠ none) ∧
    (lookupStem st0.lblSplit s ≠ none →
      lookupStem (copyStep st0 si sl d acc stem).1.lblSplit s ≠ none) := by
  have hm := copyStep_mono st0 si sl d acc stem s
  exact ⟨fun h => hm.1 (hI h), fun h => hm.2 (hL h)⟩

theorem foldl_establishes (st0 : TargetState) (si sl : List String) (d : SplitName) :
    ∀ (stems : List String) (acc : TargetState × Nat × Nat),
    (∀ s, (lookupStem st0.imgSplit s ≠ none → lookupStem acc.1.imgSplit s ≠ none) ∧
      (lookupStem st0.lblSplit s ≠ none → lookupStem acc.1.lblSplit s ≠ none)) →
    ∀ s ∈ stems,
      (s ∈ si → lookupStem (stems.foldl (copyStep st0 si sl d) acc).1.imgSplit s ≠ none) ∧
      (s ∈ sl → lookupStem (stems.foldl (copyStep st0 si sl d) acc).1.lblSplit s ≠ none) := by
  intro stems
  induction stems with
  | nil => intro acc _ s hs; simp at hs
  | cons stem rest ih =>
    intro acc hinv s hs
    have hinv' : ∀ s', (lookupStem st0.imgSplit s' ≠ none →
        lookupStem (copyStep st0 si sl d acc stem).1.imgSplit s' ≠ none) ∧
        (lookupStem st0.lblSplit s' ≠ none →
          lookupStem (copyStep st0 si sl d acc stem).1.lblSplit s' ≠ none) :=
      fun s' => copyStep_inv st0 si sl d acc stem s' (hinv s').1 (hinv s').2
    rcases List.mem_cons.mp hs with rfl | hs
    · have hest := copyStep_establishes st0 si sl d acc s (hinv s).1 (hinv s).2
      have hmono := foldl_mono st0 si sl d rest (copyStep st0 si sl d acc s) s
      exact ⟨fun hm => hmono.1 (hest.1 hm), fun hm => hmono.2 (hest.2 hm)⟩
    · exact ih (copyStep st0 si sl d acc stem) hinv' s hs

theorem copyStep_noop (st1 : TargetState) (si sl : List String) (d : SplitName)
    (acc : TargetState × Nat × Nat) (stem : String)
    (hI : stem ∈ si → lookupStem st1.imgSplit stem ≠ none)
    (hL : stem ∈ sl → lookupStem st1.lblSplit stem ≠ none) :
    copyStep st1 si sl d acc stem = acc := by
  unfold copyStep
  rw [if_neg (show ¬(lookupStem st1.lblSplit stem = none ∧ stem ∈ sl) from
        fun h => hL h.2 h.1),
      if_neg (show ¬(lookupStem st1.imgSplit stem = none ∧ stem ∈ si) from
        fun h => hI h.2 h.1)]

theorem foldl_noop (st1 : TargetState) (si sl : List String) (d : SplitName) :
    ∀ (stems : List String) (acc : TargetState × Nat × Nat),
    (∀ s ∈ stems, (s ∈ si → lookupStem st1.imgSplit s ≠ none) ∧
      (s ∈ sl → lookupStem st1.lblSplit s ≠ none)) →
    stems.foldl (copyStep st1 si sl d) acc = acc := by
  intro stems
  induction stems with
  | nil => intro acc _; rfl
  | cons stem rest ih =>
    intro acc h
    have hstem := h stem (List.mem_cons_self _ _)
    rw [List.foldl_cons, copyStep_noop st1 si sl d acc stem hstem.1 hstem.2]
    exact ih acc (fun s hs => h s (List.mem_cons_of_mem _ hs))

theorem mem_sortedStems_of_img {si sl : List String} {s : String} (h : s ∈ si) :
    s ∈ sortedStems si sl := by
  unfold sortedStems
  rw [List.mem_mergeSort, List.mem_dedup, List.mem_append]
  exact Or.inl h

theorem mem_sortedStems_of_lbl {si sl : List String} {s : String} (h : s ∈ sl) :
    s ∈ sortedStems si sl := by
  unfold sortedStems
  rw [List.mem_mergeSort, List.mem_dedup, List.mem_append]
  exact Or.inr h

end SyncYolo

/-- C4: the sync tool performs zero copies on a second run. -/
theorem c4_copy_missing_idempotent (srcImgs srcLbls : List String)
    (d : SyncYolo.SplitName) (st0 : SyncYolo.TargetState) :
    C4Concl srcImgs srcLbls d st0 := by
  have hinit : ∀ s, (SyncYolo.lookupStem st0.imgSplit s ≠ none →
      SyncYolo.lookupStem (st0, 0, 0).1.imgSplit s ≠ none) ∧
      (SyncYolo.lookupStem st0.lblSplit s ≠ none →
        SyncYolo.lookupStem ((st0, 0, 0) : SyncYolo.TargetState × Nat × Nat).1.lblSplit s ≠ none) :=
    fun _ => ⟨id, id⟩
  have hest := SyncYolo.foldl_establishes st0 srcImgs srcLbls d
    (SyncYolo.sortedStems srcImgs srcLbls) (st0, 0, 0) hinit
  have himg : ∀ s ∈ srcImgs,
      SyncYolo.lookupStem (SyncYolo.copy_missing srcImgs srcLbls d st0).1.imgSplit s ≠ none :=
    fun s hs => (hest s (SyncYolo.mem_sortedStems_of_img hs)).1 hs
  have hlbl : ∀ s ∈ srcLbls,
      SyncYolo.lookupStem (SyncYolo.copy_missing srcImgs srcLbls d st0).1.lblSplit s ≠ none :=
    fun s hs => (hest s (SyncYolo.mem_sortedStems_of_lbl hs)).2 hs
  refine ⟨himg, hlbl, ?_⟩
  unfold SyncYolo.copy_missing
  apply SyncYolo.foldl_noop
  intro s _
  exact ⟨fun hs => himg s hs, fun hs => hlbl s hs⟩

/-- Witness-style instance of C4 at a concrete state (C4's theorem has
no hypotheses; this instance additionally checks the model evaluates). -/
theorem c4_copy_missing_idempotent_example :
    C4Concl ["a", "b"] ["a"] SyncYolo.SplitName.train ⟨[("b", SyncYolo.SplitName.val)], []⟩ :=
  c4_copy_missing_idempotent ["a", "b"] ["a"] SyncYolo.SplitName.train
    ⟨[("b", SyncYolo.SplitName.val)], []⟩

/-- C8: the predict endpoint returns HTTP 400 on an empty upload and on
undecodable bytes; in both cases no response image is produced and the
result does not depend on the inference function, i.e. no inference is
run. -/
theorem c8_predict_client_errors {Img Out : Type}
    (decode : List UInt8 → Option Img) (infer : Img → Out)
    (contents : List UInt8) :
    (contents = [] →
      Api.predict decode infer contents =
        .clientError 400 (strC "Nenhum arquivo foi enviado.")) ∧
    (contents ≠ [] → decode contents = none →
      Api.predict decode infer contents =
        .clientError 400 (strC "Não foi possível abrir a imagem.")) ∧
    ((contents = [] ∨ decode contents = none) →
      (∀ e, Api.predict decode infer contents ≠ .okJpeg e) ∧
      ∀ infer2 : Img → Out,
        Api.predict decode infer contents = Api.predict decode infer2 contents) := by
  refine ⟨?_, ?_, ?_⟩
  · intro h
    subst h
    rfl
  · intro hne hdec
    unfold Api.predict
    rw [if_neg (by simpa using hne), hdec]
  · intro h
    by_cases hemp : contents = []
    · subst hemp
      exact ⟨fun e => by simp [Api.predict], fun infer2 => rfl⟩
    · have hdec : decode contents = none := h.resolve_left hemp
      constructor
      · intro e
        unfold Api.predict
        rw [if_neg (by simpa using hemp), hdec]
        simp
      · intro infer2
        unfold Api.predict
        have hne' : ¬ contents.isEmpty = true := by simpa using hemp
        simp only [if_neg hne', hdec]

/-- Witness for C8: the empty upload on a decoder that always fails. -/
theorem c8_predict_client_errors_witness :
    Api.predict (fun _ => (none : Option Unit)) (fun _ => ()) ([] : List UInt8) =
      .clientError 400 (strC "Nenhum arquivo foi enviado.") :=
  (c8_predict_client_errors (fun _ => (none : Option Unit)) (fun _ => ())
    ([] : List UInt8)).1 rfl

namespace Auditor

theorem runOp_non_mutating (fs : FS) (op : FsOp) (h : isMutating op = false) :
    runOp fs op = fs := by
  cases op with
  | read _ => rfl
  | print _ => rfl
  | write _ _ => simp [isMutating] at h

theorem runOps_clean (fs : FS) :
    ∀ ops : List FsOp, (∀ op ∈ ops, isMutating op = false) → runOps fs ops = fs := by
  intro ops
  induction ops generalizing fs with
  | nil => intro _; rfl
  | cons op rest ih =>
    intro h
    show runOps (runOp fs op) rest = fs
    rw [runOp_non_mutating fs op (h op (List.mem_cons_self _ _))]
    exact ih fs (fun o ho => h o (List.mem_cons_of_mem _ ho))

theorem mem_print_if {op : FsOp} {b : Bool} {m : List Char}
    (h : op ∈ (if b = true then [FsOp.print m] else [])) : op = FsOp.print m := by
  cases b with
  | true => simpa using h
  | false => simp at h

theorem auditSplitOps_clean (fs : FS) (a : AuditArgs) (split : List Char) :
    ∀ op ∈ auditSplitOps fs a split, isMutating op = false := by
  intro op hop
  unfold auditSplitOps at hop
  rcases List.mem_append.mp hop with hop | hcache
  rcases List.mem_append.mp hop with hop | hfmt
  rcases List.mem_append.mp hop with hop | hml
  rcases List.mem_append.mp hop with hcount | hmi
  · rcases List.mem_singleton.mp hcount with rfl
    rfl
  · rw [mem_print_if hmi]
    rfl
  · rw [mem_print_if hml]
    rfl
  · cases hcf : a.checkFormat with
    | false => rw [hcf] at hfmt; simp at hfmt
    | true =>
      rw [hcf] at hfmt
      simp only [if_true] at hfmt
      rcases List.mem_append.mp hfmt with hread | hbad
      · rcases List.mem_map.mp hread with ⟨n, _, rfl⟩
        rfl
      · rw [mem_print_if hbad]
        rfl
  · cases hic : a.inspectCache with
    | false => rw [hic] at hcache; simp at hcache
    | true =>
      rw [hic] at hcache
      simp only [if_true] at hcache
      by_cases hex : existsFile fs (a.root ++ strC "/labels/" ++ split ++ strC ".cache") = true
      · rw [if_pos hex] at hcache
        rcases List.mem_cons.mp hcache with rfl | hcache
        · rfl
        · rcases List.mem_singleton.mp hcache with rfl
          rfl
      · rw [if_neg hex] at hcache
        rcases List.mem_singleton.mp hcache with rfl
        rfl

end Auditor

/-- C9: the dataset auditor never mutates files — for every filesystem
state and every combination of flags, running the trace of operations
the auditor performs leaves the filesystem unchanged (the trace consists
of reads and prints only). -/
theorem c9_auditor_never_mutates (fs : Auditor.FS) (a : Auditor.AuditArgs) :
    Auditor.runOps fs (Auditor.auditor_main fs a) = fs := by
  apply Auditor.runOps_clean
  intro op hop
  unfold Auditor.auditor_main at hop
  rcases List.mem_flatMap.mp hop with ⟨split, _, hmem⟩
  exact Auditor.auditSplitOps_clean fs a split op hmem

